import Mathlib

set_option maxRecDepth 10000
set_option maxHeartbeats 1000000

/-!
Verification of the simple-xmlparser repository: a parser-combinator engine
plus an XML grammar producing an `Element` tree.

The repository's `lib.rs` declares `mod parser;` but the engine module's
source file is not present; the engine primitives and combinators below are
therefore modelled from the specification (section 4.1), while the XML
grammar definitions (`quoted_string` through `element`) are translated
directly from `src/src/lib.rs`.

Input is modelled as `List Char` (the Rust `&str` slice); a parse result is
`Except (List Char) (List Char × α)`, mirroring Rust's
`Result<(&str, T), &str>`. The recursive `element` parser is modelled with
an explicit fuel parameter (`elementF`); `element` runs it with fuel
`input.length + 1`, and the fuel-independence theorem below shows the fuel
never runs out on that budget, which is the termination argument of the
specification.
-/

namespace XP

/-- The parsed XML element tree: a name, an ordered attribute list and
ordered children (from `struct Element` in `lib.rs`). -/
inductive Element : Type where
  | mk (name : String) (attributes : List (String × String)) (children : List Element) : Element

/-- Projection: the element's tag name. -/
def Element.name : Element → String
  | .mk n _ _ => n

/-- Projection: the element's ordered attribute list. -/
def Element.attributes : Element → List (String × String)
  | .mk _ a _ => a

/-- Projection: the element's ordered children. -/
def Element.children : Element → List Element
  | .mk _ _ c => c

/-- Result of one parse step: remaining input plus parsed value on success,
or the failure view (the offending input slice) on failure. -/
abbrev ParseResult (α : Type) := Except (List Char) (List Char × α)

/-- A parser is a function from remaining input to a `ParseResult`. -/
abbrev Parser (α : Type) := List Char → ParseResult α

/-- Modelled from the spec: `match_literal(expected)` of the parser engine
module (`mod parser;`, file absent from the sources): succeeds consuming
exactly the prefix equal to `expected`, producing unit; fails returning the
original input unchanged if the prefix differs or input is shorter. -/
def match_literal (expected : List Char) : Parser Unit := fun input =>
  if expected.isPrefixOf input then .ok (input.drop expected.length, ())
  else .error input

/-- Modelled from the spec: `any_char` of the missing engine module:
consumes exactly one character if input is non-empty, producing it; fails
on empty input. -/
def any_char : Parser Char := fun input =>
  match input with
  | c :: rest => .ok (rest, c)
  | [] => .error input

/-- Characters allowed after the first character of an identifier:
ASCII alphanumeric or hyphen. -/
def isIdentRest (c : Char) : Bool := c.isAlphanum || c == '-'

/-- Modelled from the spec: `identifier` of the missing engine module:
succeeds if input starts with an ASCII alphabetic character, consuming it
plus all following ASCII alphanumeric or hyphen characters, producing the
consumed text; fails otherwise. -/
def identifier : Parser String := fun input =>
  match input with
  | c :: rest =>
    if c.isAlpha then
      .ok (rest.dropWhile isIdentRest, String.mk (c :: rest.takeWhile isIdentRest))
    else .error input
  | [] => .error input

/-- Modelled from the spec: `map(p, f)` of the missing engine module: runs
`p`; on success transforms the value with `f`; on failure propagates the
failure unchanged. -/
def map (p : Parser α) (f : α → β) : Parser β := fun input =>
  match p input with
  | .ok (rest, v) => .ok (rest, f v)
  | .error e => .error e

/-- Modelled from the spec: `pair(p1, p2)` of the missing engine module:
runs `p1`; on failure fails with `p1`'s failure view. On success runs `p2`
on the remaining input; on failure fails with `p2`'s failure view (input
consumed by `p1` is not restored); on double success produces both values. -/
def pair (p1 : Parser α) (p2 : Parser β) : Parser (α × β) := fun input =>
  match p1 input with
  | .ok (rest1, v1) =>
    match p2 rest1 with
    | .ok (rest2, v2) => .ok (rest2, (v1, v2))
    | .error e => .error e
  | .error e => .error e

/-- Modelled from the spec: `left(p1, p2)` of the missing engine module:
`pair` keeping only the first value. -/
def left (p1 : Parser α) (p2 : Parser β) : Parser α := map (pair p1 p2) Prod.fst

/-- Modelled from the spec: `right(p1, p2)` of the missing engine module:
`pair` keeping only the second value. -/
def right (p1 : Parser α) (p2 : Parser β) : Parser β := map (pair p1 p2) Prod.snd

/-- Modelled from the spec: `either(p1, p2)` of the missing engine module:
runs `p1` on the original input; if it succeeds returns that result,
otherwise runs `p2` on the same original input and returns `p2`'s result
unchanged. -/
def either (p1 p2 : Parser α) : Parser α := fun input =>
  match p1 input with
  | .ok r => .ok r
  | .error _ => p2 input

/-- Modelled from the spec: `pred(p, predicate)` of the missing engine
module: runs `p`; on failure propagates it; on success tests the value; if
the test is true returns the success unchanged, else fails with the
original input passed to `pred`. -/
def pred (p : Parser α) (q : α → Bool) : Parser α := fun input =>
  match p input with
  | .ok (rest, v) => if q v then .ok (rest, v) else .error input
  | .error e => .error e

/-- Modelled from the spec: `and_then(p, f)` of the missing engine module:
dependent sequencing; on success of `p`, `f` of the value yields the second
parser, run on the input remaining after `p`; failures propagate. -/
def and_then (p : Parser α) (f : α → Parser β) : Parser β := fun input =>
  match p input with
  | .ok (rest, v) => f v rest
  | .error e => .error e

/-- Fuel-indexed repetition loop shared by `zero_or_more` and
`one_or_more`: repeatedly runs `p`, collecting values, stopping without
consuming at the first failure. The fuel bounds the number of iterations;
every use supplies fuel exceeding the input length, which suffices because
each successful application of the repeated parsers used here consumes at
least one character. -/
def zom (p : Parser α) : Nat → List Char → List Char × List α
  | 0, input => (input, [])
  | fuel + 1, input =>
    match p input with
    | .error _ => (input, [])
    | .ok (rest, v) =>
      let r := zom p fuel rest
      (r.1, v :: r.2)

/-- Modelled from the spec: `zero_or_more(p)` of the missing engine module:
runs `p` repeatedly, collecting values; never fails: zero applications
yield the empty sequence with the input unchanged. -/
def zero_or_more (p : Parser α) : Parser (List α) := fun input =>
  let r := zom p (input.length + 1) input
  .ok (r.1, r.2)

/-- Modelled from the spec: `one_or_more(p)` of the missing engine module:
like `zero_or_more` but fails, with the original input as the failure view,
when the very first application of `p` fails. -/
def one_or_more (p : Parser α) : Parser (List α) := fun input =>
  match p input with
  | .error _ => .error input
  | .ok (rest, v) =>
    let r := zom p (rest.length + 1) rest
    .ok (r.1, v :: r.2)

/-- Modelled from the spec: the whitespace-character parser of the missing
engine module, `pred(any_char, is_whitespace)`. -/
def whitespace_char : Parser Char := pred any_char (fun c => c.isWhitespace)

/-- Modelled from the spec: `space1` of the missing engine module: one or
more whitespace characters. -/
def space1 : Parser (List Char) := one_or_more whitespace_char

/-- Modelled from the spec: `space0` of the missing engine module: zero or
more whitespace characters. -/
def space0 : Parser (List Char) := zero_or_more whitespace_char

/-- Modelled from the spec: `whitespace_wrap(p)` of the missing engine
module: optional whitespace, then `p`, then optional whitespace; the value
is `p`'s value. -/
def whitespace_wrap (p : Parser α) : Parser α := right space0 (left p space0)

/-- From `lib.rs`: text between two quote characters, any character except
a quote allowed inside, zero or more times; value is the enclosed text. -/
def quoted_string : Parser String :=
  map (right (match_literal ['"'])
        (left (zero_or_more (pred any_char (fun c => c != '"')))
              (match_literal ['"'])))
      (fun chars => String.mk chars)

/-- From `lib.rs`: an identifier, `=`, then a quoted string; value is the
(name, value) pair. -/
def attribute_pair : Parser (String × String) :=
  pair identifier (right (match_literal ['=']) quoted_string)

/-- From `lib.rs`: zero or more occurrences of (one-or-more whitespace then
one attribute pair). -/
def attributes : Parser (List (String × String)) :=
  zero_or_more (right space1 attribute_pair)

/-- From `lib.rs`: `<` then an identifier then the attribute list. -/
def element_start : Parser (String × List (String × String)) :=
  right (match_literal ['<']) (pair identifier attributes)

/-- From `lib.rs`: `element_start` followed by `/>`; an `Element` with no
children. -/
def single_element : Parser Element :=
  map (left element_start (match_literal ['/', '>']))
      (fun nv => Element.mk nv.1 nv.2 [])

/-- From `lib.rs`: `element_start` followed by `>`; an `Element` with no
children yet. -/
def open_element : Parser Element :=
  map (left element_start (match_literal ['>']))
      (fun nv => Element.mk nv.1 nv.2 [])

/-- From `lib.rs`: `</` then an identifier then `>`, filtered to require
the parsed name to equal `expected_name`. -/
def close_element (expected_name : String) : Parser String :=
  pred (right (match_literal ['<', '/']) (left identifier (match_literal ['>'])))
       (fun name => name == expected_name)

/-- Fuel-indexed version of the recursive `element` parser of `lib.rs`:
whitespace-wrapped choice between a self-closing element and a parent
element whose children recurse at one less fuel. -/
def elementF : Nat → Parser Element
  | 0 => fun input => .error input
  | n + 1 =>
    whitespace_wrap (either single_element
      (and_then open_element (fun el =>
        map (left (zero_or_more (elementF n)) (close_element el.name))
            (fun children => Element.mk el.name el.attributes children))))

/-- From `lib.rs`: `open_element`, then dependently zero or more child
elements followed by the matching close tag; children at fuel `n`. -/
def parent_elementF (n : Nat) : Parser Element :=
  and_then open_element (fun el =>
    map (left (zero_or_more (elementF n)) (close_element el.name))
        (fun children => Element.mk el.name el.attributes children))

/-- From `lib.rs`: the grammar's entry point; fuel `input.length + 1`
always suffices (fuel-independence is proved below). -/
def element : Parser Element := fun input => elementF (input.length + 1) input

theorem elementF_succ (n : Nat) :
    elementF (n + 1) = whitespace_wrap (either single_element (parent_elementF n)) := rfl

/-! ### List helper lemmas -/

theorem dropWhile_suffix (q : Char → Bool) : ∀ l : List Char, l.dropWhile q <:+ l
  | [] => List.suffix_refl _
  | c :: l => by
    rw [List.dropWhile_cons]
    by_cases h : q c
    · simp only [h, if_true]
      exact (dropWhile_suffix q l).trans (List.suffix_cons c l)
    · simp [h]

theorem dropWhile_head_false {q : Char → Bool} :
    ∀ {l r : List Char} {c : Char}, l.dropWhile q = c :: r → q c = false := by
  intro l
  induction l with
  | nil => intro r c h; simp at h
  | cons a l ih =>
    intro r c h
    rw [List.dropWhile_cons] at h
    by_cases ha : q a
    · simp only [ha, if_true] at h; exact ih h
    · simp only [ha, if_false] at h
      cases h; simpa using ha

theorem mem_takeWhile_true {q : Char → Bool} :
    ∀ {l : List Char} {c : Char}, c ∈ l.takeWhile q → q c = true := by
  intro l
  induction l with
  | nil => intro c h; simp at h
  | cons a l ih =>
    intro c h
    rw [List.takeWhile_cons] at h
    by_cases ha : q a
    · simp only [ha, if_true, List.mem_cons] at h
      rcases h with h | h
      · subst h; exact ha
      · exact ih h
    · simp only [ha, if_false] at h; simp at h

theorem takeWhile_append_stop {q : Char → Bool} :
    ∀ {a : List Char} (b : List Char) {d : Char} {ds : List Char},
      a.dropWhile q = d :: ds →
      (a ++ b).takeWhile q = a.takeWhile q ∧ (a ++ b).dropWhile q = d :: (ds ++ b) := by
  intro a
  induction a with
  | nil => intro b d ds h; simp at h
  | cons c a ih =>
    intro b d ds h
    rw [List.dropWhile_cons] at h
    by_cases hc : q c
    · simp only [hc, if_true] at h
      have hr := ih b h
      refine ⟨?_, ?_⟩
      · rw [List.cons_append, List.takeWhile_cons, List.takeWhile_cons]
        simp only [hc, if_true, hr.1]
      · rw [List.cons_append, List.dropWhile_cons]
        simp only [hc, if_true, hr.2]
    · simp only [hc, if_false] at h
      cases h
      refine ⟨?_, ?_⟩
      · rw [List.cons_append, List.takeWhile_cons, List.takeWhile_cons]
        simp [hc]
      · rw [List.cons_append, List.dropWhile_cons]
        simp [hc]

theorem takeWhile_append_all {q : Char → Bool} :
    ∀ {a : List Char} (b : List Char), (∀ c ∈ a, q c = true) →
      (a ++ b).takeWhile q = a ++ b.takeWhile q ∧ (a ++ b).dropWhile q = b.dropWhile q := by
  intro a
  induction a with
  | nil => intro b _; simp
  | cons c a ih =>
    intro b h
    have hc : q c = true := h c (List.mem_cons_self c a)
    have hr := ih b (fun x hx => h x (List.mem_cons_of_mem c hx))
    refine ⟨?_, ?_⟩
    · rw [List.cons_append, List.takeWhile_cons]
      simp only [hc, if_true, hr.1, List.cons_append]
    · rw [List.cons_append, List.dropWhile_cons]
      simp only [hc, if_true, hr.2]

/-! ### Closed forms for the character-loop parsers -/

theorem pred_any_char_nil (q : Char → Bool) : pred any_char q [] = .error [] := rfl

theorem pred_any_char_cons (q : Char → Bool) (c : Char) (r : List Char) :
    pred any_char q (c :: r) = if q c then .ok (r, c) else .error (c :: r) := rfl

/-- The repetition of `pred(any_char, q)` consumes exactly the maximal
prefix of characters satisfying `q`, given enough fuel. -/
theorem zom_pred_any (q : Char → Bool) :
    ∀ (fuel : Nat) (i : List Char), (i.takeWhile q).length < fuel →
      zom (pred any_char q) fuel i = (i.dropWhile q, i.takeWhile q) := by
  intro fuel
  induction fuel with
  | zero => intro i h; exact absurd h (by simp)
  | succ n ih =>
    intro i h
    match i with
    | [] =>
      rw [zom, pred_any_char_nil]
      rfl
    | c :: r =>
      rw [zom, pred_any_char_cons]
      by_cases hc : q c
      · have htk : (c :: r).takeWhile q = c :: r.takeWhile q := by
          rw [List.takeWhile_cons]; simp [hc]
        have hdr : (c :: r).dropWhile q = r.dropWhile q := by
          rw [List.dropWhile_cons]; simp [hc]
        rw [htk] at h
        simp only [List.length_cons, Nat.succ_lt_succ_iff] at h
        simp only [hc, if_true, ih r h, htk, hdr]
      · have htk : (c :: r).takeWhile q = [] := by
          rw [List.takeWhile_cons]; simp [hc]
        have hdr : (c :: r).dropWhile q = c :: r := by
          rw [List.dropWhile_cons]; simp [hc]
        simp only [hc, if_false, htk, hdr]
        simp [hc]

theorem takeWhile_length_le (q : Char → Bool) (i : List Char) :
    (i.takeWhile q).length ≤ i.length :=
  (List.takeWhile_sublist q).length_le

/-- `space0` always succeeds, consuming exactly the maximal whitespace
prefix. -/
theorem space0_eq (i : List Char) :
    space0 i = .ok (i.dropWhile (fun c => c.isWhitespace), i.takeWhile (fun c => c.isWhitespace)) := by
  unfold space0 zero_or_more whitespace_char
  rw [zom_pred_any _ _ _ (Nat.lt_succ_of_le (takeWhile_length_le _ i))]

theorem space1_nil : space1 [] = .error [] := rfl

theorem space1_cons_ws {c : Char} (r : List Char) (hc : c.isWhitespace = true) :
    space1 (c :: r) =
      .ok ((c :: r).dropWhile (fun x => x.isWhitespace), (c :: r).takeWhile (fun x => x.isWhitespace)) := by
  unfold space1 one_or_more whitespace_char
  rw [pred_any_char_cons]
  simp only [hc, if_true]
  rw [zom_pred_any _ _ _ (Nat.lt_succ_of_le (takeWhile_length_le _ r))]
  have htk : (c :: r).takeWhile (fun x => x.isWhitespace) = c :: r.takeWhile (fun x => x.isWhitespace) := by
    rw [List.takeWhile_cons]; simp [hc]
  have hdr : (c :: r).dropWhile (fun x => x.isWhitespace) = r.dropWhile (fun x => x.isWhitespace) := by
    rw [List.dropWhile_cons]; simp [hc]
  rw [htk, hdr]

theorem space1_cons_not {c : Char} (r : List Char) (hc : c.isWhitespace = false) :
    space1 (c :: r) = .error (c :: r) := by
  unfold space1 one_or_more whitespace_char
  rw [pred_any_char_cons]
  simp [hc]

/-! ### Suffix soundness: every parser returns a suffix of its input -/

/-- A parser is suffix-sound when, in both outcomes, the returned view is a
suffix of the input it was given. -/
def Sound (p : Parser α) : Prop :=
  (∀ i r v, p i = .ok (r, v) → r <:+ i) ∧ (∀ i e, p i = .error e → e <:+ i)

theorem sound_match_literal (expected : List Char) : Sound (match_literal expected) := by
  constructor
  · intro i r v h
    unfold match_literal at h
    split at h
    · cases h; exact List.drop_suffix _ _
    · cases h
  · intro i e h
    unfold match_literal at h
    split at h
    · cases h
    · cases h; exact List.suffix_refl _

theorem sound_any_char : Sound any_char := by
  constructor
  · intro i r v h
    unfold any_char at h
    split at h
    · cases h; exact List.suffix_cons _ _
    · cases h
  · intro i e h
    unfold any_char at h
    split at h
    · cases h
    · cases h; exact List.suffix_refl _

theorem sound_identifier : Sound identifier := by
  constructor
  · intro i r v h
    unfold identifier at h
    split at h
    · split at h
      · cases h; exact (dropWhile_suffix _ _).trans (List.suffix_cons _ _)
      · cases h
    · cases h
  · intro i e h
    unfold identifier at h
    split at h
    · split at h
      · cases h
      · cases h; exact List.suffix_refl _
    · cases h; exact List.suffix_refl _

theorem sound_map {p : Parser α} {f : α → β} (hp : Sound p) : Sound (map p f) := by
  constructor
  · intro i r v h
    unfold map at h
    split at h
    · cases h; exact hp.1 _ _ _ (by assumption)
    · cases h
  · intro i e h
    unfold map at h
    split at h
    · cases h
    · cases h; exact hp.2 _ _ (by assumption)

theorem sound_pair {p1 : Parser α} {p2 : Parser β} (h1 : Sound p1) (h2 : Sound p2) :
    Sound (pair p1 p2) := by
  constructor
  · intro i r v h
    unfold pair at h
    split at h
    case h_1 rest1 v1 heq1 =>
      split at h
      case h_1 rest2 v2 heq2 =>
        cases h
        exact (h2.1 _ _ _ heq2).trans (h1.1 _ _ _ heq1)
      case h_2 => cases h
    case h_2 => cases h
  · intro i e h
    unfold pair at h
    split at h
    case h_1 rest1 v1 heq1 =>
      split at h
      case h_1 => cases h
      case h_2 e2 heq2 =>
        cases h
        exact (h2.2 _ _ heq2).trans (h1.1 _ _ _ heq1)
    case h_2 e1 heq1 =>
      cases h
      exact h1.2 _ _ heq1

theorem sound_left {p1 : Parser α} {p2 : Parser β} (h1 : Sound p1) (h2 : Sound p2) :
    Sound (left p1 p2) := sound_map (sound_pair h1 h2)

theorem sound_right {p1 : Parser α} {p2 : Parser β} (h1 : Sound p1) (h2 : Sound p2) :
    Sound (right p1 p2) := sound_map (sound_pair h1 h2)

theorem sound_either {p1 p2 : Parser α} (h1 : Sound p1) (h2 : Sound p2) :
    Sound (either p1 p2) := by
  constructor
  · intro i r v h
    unfold either at h
    split at h
    case h_1 val heq =>
      injection h with h'
      subst h'
      exact h1.1 _ _ _ heq
    case h_2 => exact h2.1 _ _ _ h
  · intro i e h
    unfold either at h
    split at h
    case h_1 => cases h
    case h_2 => exact h2.2 _ _ h

theorem sound_pred {p : Parser α} {q : α → Bool} (hp : Sound p) : Sound (pred p q) := by
  constructor
  · intro i r v h
    unfold pred at h
    split at h
    · split at h
      · cases h; exact hp.1 _ _ _ (by assumption)
      · cases h
    · cases h
  · intro i e h
    unfold pred at h
    split at h
    · split at h
      · cases h
      · cases h; exact List.suffix_refl _
    · cases h; exact hp.2 _ _ (by assumption)

theorem sound_and_then {p : Parser α} {f : α → Parser β}
    (hp : Sound p) (hf : ∀ v, Sound (f v)) : Sound (and_then p f) := by
  constructor
  · intro i r v h
    unfold and_then at h
    split at h
    case h_1 rest1 v1 heq1 =>
      exact ((hf v1).1 _ _ _ h).trans (hp.1 _ _ _ heq1)
    case h_2 => cases h
  · intro i e h
    unfold and_then at h
    split at h
    case h_1 rest1 v1 heq1 =>
      exact ((hf v1).2 _ _ h).trans (hp.1 _ _ _ heq1)
    case h_2 e1 heq1 =>
      cases h
      exact hp.2 _ _ heq1

theorem zom_suffix {p : Parser α} (hp : Sound p) :
    ∀ (fuel : Nat) (i : List Char), (zom p fuel i).1 <:+ i := by
  intro fuel
  induction fuel with
  | zero => intro i; exact List.suffix_refl _
  | succ n ih =>
    intro i
    rw [zom]
    split
    · exact List.suffix_refl _
    case h_2 rest v heq =>
      exact (ih rest).trans (hp.1 _ _ _ heq)

theorem sound_zero_or_more {p : Parser α} (hp : Sound p) : Sound (zero_or_more p) := by
  constructor
  · intro i r v h
    unfold zero_or_more at h
    cases h
    exact zom_suffix hp _ i
  · intro i e h
    unfold zero_or_more at h
    cases h

theorem sound_one_or_more {p : Parser α} (hp : Sound p) : Sound (one_or_more p) := by
  constructor
  · intro i r v h
    unfold one_or_more at h
    split at h
    · cases h
    case h_2 rest v1 heq =>
      cases h
      exact (zom_suffix hp _ rest).trans (hp.1 _ _ _ heq)
  · intro i e h
    unfold one_or_more at h
    split at h
    · cases h; exact List.suffix_refl _
    · cases h

theorem sound_whitespace_char : Sound whitespace_char := sound_pred sound_any_char

theorem sound_space0 : Sound space0 := sound_zero_or_more sound_whitespace_char

theorem sound_space1 : Sound space1 := sound_one_or_more sound_whitespace_char

theorem sound_whitespace_wrap {p : Parser α} (hp : Sound p) : Sound (whitespace_wrap p) :=
  sound_right sound_space0 (sound_left hp sound_space0)

theorem sound_quoted_string : Sound quoted_string :=
  sound_map (sound_right (sound_match_literal _)
    (sound_left (sound_zero_or_more (sound_pred sound_any_char)) (sound_match_literal _)))

theorem sound_attribute_pair : Sound attribute_pair :=
  sound_pair sound_identifier (sound_right (sound_match_literal _) sound_quoted_string)

theorem sound_attributes : Sound attributes :=
  sound_zero_or_more (sound_right sound_space1 sound_attribute_pair)

theorem sound_element_start : Sound element_start :=
  sound_right (sound_match_literal _) (sound_pair sound_identifier sound_attributes)

theorem sound_single_element : Sound single_element :=
  sound_map (sound_left sound_element_start (sound_match_literal _))

theorem sound_open_element : Sound open_element :=
  sound_map (sound_left sound_element_start (sound_match_literal _))

theorem sound_close_element (name : String) : Sound (close_element name) :=
  sound_pred (sound_right (sound_match_literal _)
    (sound_left sound_identifier (sound_match_literal _)))

theorem sound_elementF : ∀ n, Sound (elementF n) := by
  intro n
  induction n with
  | zero =>
    constructor
    · intro i r v h; cases h
    · intro i e h; cases h; exact List.suffix_refl _
  | succ n ih =>
    rw [elementF_succ]
    refine sound_whitespace_wrap (sound_either sound_single_element ?_)
    exact sound_and_then sound_open_element (fun el =>
      sound_map (sound_left (sound_zero_or_more ih) (sound_close_element _)))

theorem sound_element : Sound element := by
  constructor
  · intro i r v h
    exact (sound_elementF (i.length + 1)).1 _ _ _ h
  · intro i e h
    exact (sound_elementF (i.length + 1)).2 _ _ h

/-! ### Inversion lemmas for `match_literal` -/

theorem match_literal_ok {expected i r : List Char} {u : Unit}
    (h : match_literal expected i = .ok (r, u)) : i = expected ++ r := by
  unfold match_literal at h
  split at h
  case isTrue hp =>
    cases h
    obtain ⟨t, ht⟩ := (List.isPrefixOf_iff_prefix.mp hp)
    subst ht
    rw [List.drop_left]
  case isFalse => cases h

theorem match_literal_append (expected r : List Char) :
    match_literal expected (expected ++ r) = .ok (r, ()) := by
  unfold match_literal
  rw [if_pos (List.isPrefixOf_iff_prefix.mpr ⟨r, rfl⟩), List.drop_left]

theorem match_literal_error {expected i e : List Char}
    (h : match_literal expected i = .error e) :
    e = i ∧ expected.isPrefixOf i = false := by
  unfold match_literal at h
  split at h
  case isTrue => cases h
  case isFalse hp =>
    cases h
    refine ⟨rfl, ?_⟩
    cases hb : List.isPrefixOf expected i
    · rfl
    · exact absurd hb hp

theorem match_literal_not_prefix {expected i : List Char}
    (h : expected.isPrefixOf i = false) : match_literal expected i = .error i := by
  unfold match_literal
  rw [if_neg (by simp [h])]

/-! ### Computation and inversion lemmas for the combinators -/

theorem map_ok_of {p : Parser α} {f : α → β} {i r : List Char} {v : α}
    (h : p i = .ok (r, v)) : map p f i = .ok (r, f v) := by
  unfold map
  rw [h]

theorem map_err_of {p : Parser α} {f : α → β} {i e : List Char}
    (h : p i = .error e) : map p f i = .error e := by
  unfold map
  rw [h]

theorem map_ok_inv {p : Parser α} {f : α → β} {i r : List Char} {v : β}
    (h : map p f i = .ok (r, v)) : ∃ w, p i = .ok (r, w) ∧ v = f w := by
  unfold map at h
  split at h
  case h_1 rest w heq =>
    injection h with h'
    injection h' with h1 h2
    subst h1
    exact ⟨w, heq, h2.symm⟩
  case h_2 => cases h

theorem map_err_inv {p : Parser α} {f : α → β} {i e : List Char}
    (h : map p f i = .error e) : p i = .error e := by
  unfold map at h
  split at h
  case h_1 => cases h
  case h_2 e1 heq =>
    cases h
    exact heq

theorem pair_ok_of {p1 : Parser α} {p2 : Parser β} {i r1 r2 : List Char} {v1 : α} {v2 : β}
    (h1 : p1 i = .ok (r1, v1)) (h2 : p2 r1 = .ok (r2, v2)) :
    pair p1 p2 i = .ok (r2, (v1, v2)) := by
  unfold pair
  rw [h1]
  dsimp only
  rw [h2]

theorem pair_err_fst {p1 : Parser α} {p2 : Parser β} {i e : List Char}
    (h : p1 i = .error e) : pair p1 p2 i = .error e := by
  unfold pair
  rw [h]

theorem pair_err_snd {p1 : Parser α} {p2 : Parser β} {i r1 e : List Char} {v1 : α}
    (h1 : p1 i = .ok (r1, v1)) (h2 : p2 r1 = .error e) : pair p1 p2 i = .error e := by
  unfold pair
  rw [h1]
  dsimp only
  rw [h2]

theorem pair_ok_inv {p1 : Parser α} {p2 : Parser β} {i r : List Char} {v : α × β}
    (h : pair p1 p2 i = .ok (r, v)) :
    ∃ r1, p1 i = .ok (r1, v.1) ∧ p2 r1 = .ok (r, v.2) := by
  unfold pair at h
  split at h
  case h_1 rest1 v1 heq1 =>
    split at h
    case h_1 rest2 v2 heq2 =>
      injection h with h'
      injection h' with ha hb
      subst ha
      subst hb
      exact ⟨rest1, heq1, heq2⟩
    case h_2 => cases h
  case h_2 => cases h

theorem left_ok_of {p1 : Parser α} {p2 : Parser β} {i r1 r2 : List Char} {v1 : α} {v2 : β}
    (h1 : p1 i = .ok (r1, v1)) (h2 : p2 r1 = .ok (r2, v2)) :
    left p1 p2 i = .ok (r2, v1) :=
  map_ok_of (pair_ok_of h1 h2)

theorem right_ok_of {p1 : Parser α} {p2 : Parser β} {i r1 r2 : List Char} {v1 : α} {v2 : β}
    (h1 : p1 i = .ok (r1, v1)) (h2 : p2 r1 = .ok (r2, v2)) :
    right p1 p2 i = .ok (r2, v2) :=
  map_ok_of (pair_ok_of h1 h2)

theorem left_err_fst {p1 : Parser α} {p2 : Parser β} {i e : List Char}
    (h : p1 i = .error e) : left p1 p2 i = .error e :=
  map_err_of (pair_err_fst h)

theorem right_err_fst {p1 : Parser α} {p2 : Parser β} {i e : List Char}
    (h : p1 i = .error e) : right p1 p2 i = .error e :=
  map_err_of (pair_err_fst h)

theorem left_err_snd {p1 : Parser α} {p2 : Parser β} {i r1 e : List Char} {v1 : α}
    (h1 : p1 i = .ok (r1, v1)) (h2 : p2 r1 = .error e) : left p1 p2 i = .error e :=
  map_err_of (pair_err_snd h1 h2)

theorem right_err_snd {p1 : Parser α} {p2 : Parser β} {i r1 e : List Char} {v1 : α}
    (h1 : p1 i = .ok (r1, v1)) (h2 : p2 r1 = .error e) : right p1 p2 i = .error e :=
  map_err_of (pair_err_snd h1 h2)

theorem left_ok_inv {p1 : Parser α} {p2 : Parser β} {i r : List Char} {v : α}
    (h : left p1 p2 i = .ok (r, v)) :
    ∃ r1 w, p1 i = .ok (r1, v) ∧ p2 r1 = .ok (r, w) := by
  obtain ⟨w, hw, hv⟩ := map_ok_inv h
  obtain ⟨r1, h1, h2⟩ := pair_ok_inv hw
  subst hv
  exact ⟨r1, w.2, h1, h2⟩

theorem right_ok_inv {p1 : Parser α} {p2 : Parser β} {i r : List Char} {v : β}
    (h : right p1 p2 i = .ok (r, v)) :
    ∃ r1 w, p1 i = .ok (r1, w) ∧ p2 r1 = .ok (r, v) := by
  obtain ⟨w, hw, hv⟩ := map_ok_inv h
  obtain ⟨r1, h1, h2⟩ := pair_ok_inv hw
  subst hv
  exact ⟨r1, w.1, h1, h2⟩

theorem either_ok_of {p1 p2 : Parser α} {i r : List Char} {v : α}
    (h : p1 i = .ok (r, v)) : either p1 p2 i = .ok (r, v) := by
  unfold either
  rw [h]

theorem either_err_of {p1 p2 : Parser α} {i e : List Char}
    (h : p1 i = .error e) : either p1 p2 i = p2 i := by
  unfold either
  rw [h]

theorem pred_ok_of {p : Parser α} {q : α → Bool} {i r : List Char} {v : α}
    (h : p i = .ok (r, v)) (hq : q v = true) : pred p q i = .ok (r, v) := by
  unfold pred
  rw [h]
  simp [hq]

theorem pred_reject {p : Parser α} {q : α → Bool} {i r : List Char} {v : α}
    (h : p i = .ok (r, v)) (hq : q v = false) : pred p q i = .error i := by
  unfold pred
  rw [h]
  simp [hq]

theorem pred_err_of {p : Parser α} {q : α → Bool} {i e : List Char}
    (h : p i = .error e) : pred p q i = .error e := by
  unfold pred
  rw [h]

theorem pred_ok_inv {p : Parser α} {q : α → Bool} {i r : List Char} {v : α}
    (h : pred p q i = .ok (r, v)) : p i = .ok (r, v) ∧ q v = true := by
  unfold pred at h
  split at h
  case h_1 rest w heq =>
    split at h
    case isTrue hq =>
      injection h with h'
      injection h' with ha hb
      subst ha
      subst hb
      exact ⟨heq, hq⟩
    case isFalse => cases h
  case h_2 => cases h

theorem map_congr {p q : Parser α} (f : α → β) (i : List Char)
    (h : p i = q i) : map p f i = map q f i := by
  unfold map
  rw [h]

theorem pair_congr_fst {p1 q1 : Parser α} {p2 : Parser β} (i : List Char)
    (h : p1 i = q1 i) : pair p1 p2 i = pair q1 p2 i := by
  unfold pair
  rw [h]

theorem and_then_ok_of {p : Parser α} {f : α → Parser β} {i r : List Char} {v : α}
    (h : p i = .ok (r, v)) : and_then p f i = f v r := by
  unfold and_then
  rw [h]

theorem and_then_err_of {p : Parser α} {f : α → Parser β} {i e : List Char}
    (h : p i = .error e) : and_then p f i = .error e := by
  unfold and_then
  rw [h]

/-- Closed form of the whitespace wrapper: strip leading whitespace, run the
parser, strip trailing whitespace from its remaining input. -/
theorem whitespace_wrap_eq (p : Parser α) (i : List Char) :
    whitespace_wrap p i =
      match p (i.dropWhile (fun c => c.isWhitespace)) with
      | .error e => .error e
      | .ok (r1, v) => .ok (r1.dropWhile (fun c => c.isWhitespace), v) := by
  unfold whitespace_wrap
  split
  case h_2 r1 v heq =>
    exact right_ok_of (space0_eq i) (left_ok_of heq (space0_eq r1))
  case h_1 e heq =>
    unfold right
    refine map_err_of (pair_err_snd (space0_eq i) ?_)
    exact left_err_fst heq

/-! ### Fuel independence of the recursive element parser -/

theorem element_start_consumes {i r : List Char} {v : String × List (String × String)}
    (h : element_start i = .ok (r, v)) : r.length < i.length := by
  obtain ⟨r1, w, h1, h2⟩ := right_ok_inv h
  have hi := match_literal_ok h1
  subst hi
  have : r <:+ r1 := (sound_pair sound_identifier sound_attributes).1 _ _ _ h2
  have := this.length_le
  simp only [List.length_append, List.length_cons, List.length_nil] at *
  omega

theorem open_element_consumes {i r : List Char} {el : Element}
    (h : open_element i = .ok (r, el)) : r.length < i.length := by
  obtain ⟨w, hw, _⟩ := map_ok_inv h
  obtain ⟨r1, w2, h1, h2⟩ := left_ok_inv hw
  have hc := element_start_consumes h1
  have : r <:+ r1 := (sound_match_literal _).1 _ _ _ h2
  exact Nat.lt_of_le_of_lt this.length_le hc

theorem zom_congr {p q : Parser α} (hp : Sound p) :
    ∀ (fuel : Nat) (i : List Char), (∀ x : List Char, x.length ≤ i.length → p x = q x) →
      zom p fuel i = zom q fuel i := by
  intro fuel
  induction fuel with
  | zero => intro i _; rfl
  | succ n ih =>
    intro i h
    rw [zom, zom, ← h i (Nat.le_refl _)]
    split
    · rfl
    case h_2 rest v heq =>
      have hr : rest.length ≤ i.length := (hp.1 _ _ _ heq).length_le
      rw [ih rest (fun x hx => h x (hx.trans hr))]

theorem either_congr {p1 p2 q1 q2 : Parser α} (i : List Char)
    (h1 : p1 i = q1 i) (h2 : p2 i = q2 i) : either p1 p2 i = either q1 q2 i := by
  unfold either
  rw [h1]
  split <;> [rfl; exact h2]

theorem whitespace_wrap_congr {p q : Parser α} (i : List Char)
    (h : ∀ x : List Char, x.length ≤ i.length → p x = q x) :
    whitespace_wrap p i = whitespace_wrap q i := by
  rw [whitespace_wrap_eq, whitespace_wrap_eq,
    h _ ((dropWhile_suffix _ i).length_le)]

theorem parent_elementF_congr {n m : Nat} (i : List Char)
    (h : ∀ x : List Char, x.length < i.length → elementF n x = elementF m x) :
    parent_elementF n i = parent_elementF m i := by
  unfold parent_elementF
  unfold and_then
  split
  case h_2 => rfl
  case h_1 rest1 el heq =>
    have hlt : rest1.length < i.length := open_element_consumes heq
    have hz : zom (elementF n) (rest1.length + 1) rest1
        = zom (elementF m) (rest1.length + 1) rest1 :=
      zom_congr (sound_elementF n) _ rest1
        (fun x hx => h x (Nat.lt_of_le_of_lt hx hlt))
    have h0 : zero_or_more (elementF n) rest1 = zero_or_more (elementF m) rest1 := by
      unfold zero_or_more
      rw [hz]
    unfold left
    exact map_congr _ rest1 (map_congr _ rest1 (pair_congr_fst rest1 h0))

theorem elementF_congr :
    ∀ (n m : Nat) (i : List Char), i.length < n → i.length < m →
      elementF n i = elementF m i := by
  intro n
  induction n with
  | zero => intro m i h1 _; exact absurd h1 (Nat.not_lt_zero _)
  | succ n ih =>
    intro m i h1 h2
    match m with
    | 0 => exact absurd h2 (Nat.not_lt_zero _)
    | m + 1 =>
      rw [elementF_succ, elementF_succ]
      refine whitespace_wrap_congr i (fun x hx => ?_)
      refine either_congr x rfl ?_
      refine parent_elementF_congr x (fun y hy => ?_)
      have hyn : y.length < n := by omega
      have hym : y.length < m := by omega
      exact ih m y hyn hym

/-- Fuel independence: any fuel exceeding the input length gives the same
result as the default fuel used by `element`. -/
theorem elementF_eq_element {n : Nat} {i : List Char} (h : i.length < n) :
    elementF n i = element i :=
  elementF_congr n (i.length + 1) i h (Nat.lt_succ_self _)

/-! ### Whitespace character facts -/

/-- Every character of the list is whitespace. -/
def AllWS (l : List Char) : Prop := ∀ c ∈ l, c.isWhitespace = true

theorem ws_char_cases {c : Char} (h : c.isWhitespace = true) :
    c = ' ' ∨ c = '\t' ∨ c = '\r' ∨ c = '\n' := by
  unfold Char.isWhitespace at h
  simp only [Bool.or_eq_true, decide_eq_true_eq] at h
  tauto

theorem ws_ne_char {c d : Char} (hc : c.isWhitespace = true)
    (hd : d.isWhitespace = false) : c ≠ d := by
  intro h
  subst h
  rw [hc] at hd
  cases hd

theorem alpha_not_ws {c : Char} (h : c.isAlpha = true) : c.isWhitespace = false := by
  cases hw : c.isWhitespace
  · rfl
  · rcases ws_char_cases hw with h1 | h1 | h1 | h1 <;> subst h1 <;> exact absurd h (by decide)

theorem ws_not_identRest {c : Char} (h : c.isWhitespace = true) :
    isIdentRest c = false := by
  rcases ws_char_cases h with h1 | h1 | h1 | h1 <;> subst h1 <;> decide

theorem ws_not_alpha {c : Char} (h : c.isWhitespace = true) : c.isAlpha = false := by
  rcases ws_char_cases h with h1 | h1 | h1 | h1 <;> subst h1 <;> decide

theorem allWS_dropWhile {w : List Char} (h : AllWS w) :
    w.dropWhile (fun c => c.isWhitespace) = [] :=
  List.dropWhile_eq_nil_iff.mpr (fun c hc => by simp [h c hc])

theorem dropWhile_ws_append {w i : List Char} (h : AllWS w) :
    (w ++ i).dropWhile (fun c => c.isWhitespace) = i.dropWhile (fun c => c.isWhitespace) :=
  (takeWhile_append_all i (fun c hc => by simp [h c hc])).2

/-! ### Exact-parse lemmas for the grammar pieces -/

/-- The head of the list, if any, is not an identifier-continuation
character. -/
def HeadNotIdent (t : List Char) : Prop :=
  ∀ d t', t = d :: t' → isIdentRest d = false

/-- The head of the list, if any, is not whitespace. -/
def HeadNotWS (t : List Char) : Prop :=
  ∀ d t', t = d :: t' → d.isWhitespace = false

theorem identifier_stop {name : List Char} {c : Char} {cs : List Char}
    (hn : name = c :: cs) (hc : c.isAlpha = true)
    (hcs : ∀ x ∈ cs, isIdentRest x = true)
    (t : List Char) (ht : HeadNotIdent t) :
    identifier (name ++ t) = .ok (t, String.mk name) := by
  subst hn
  rw [List.cons_append]
  unfold identifier
  simp only [hc, if_true]
  have htk : (cs ++ t).takeWhile isIdentRest = cs ++ t.takeWhile isIdentRest :=
    (takeWhile_append_all t hcs).1
  have hdr : (cs ++ t).dropWhile isIdentRest = t.dropWhile isIdentRest :=
    (takeWhile_append_all t hcs).2
  rw [htk, hdr]
  match t, ht with
  | [], _ => simp
  | d :: t', ht =>
    have hd := ht d t' rfl
    rw [List.takeWhile_cons, List.dropWhile_cons]
    simp [hd]

theorem quoted_string_exact {value : List Char}
    (hv : ∀ x ∈ value, (x != '"') = true) (rest : List Char) :
    quoted_string ('"' :: (value ++ '"' :: rest)) = .ok (rest, String.mk value) := by
  unfold quoted_string
  have h1 : match_literal ['"'] ('"' :: (value ++ '"' :: rest))
      = .ok (value ++ '"' :: rest, ()) := match_literal_append ['"'] _
  have htk : (value ++ '"' :: rest).takeWhile (fun c => c != '"') = value := by
    rw [(takeWhile_append_all ('"' :: rest) hv).1, List.takeWhile_cons]
    simp
  have hdr : (value ++ '"' :: rest).dropWhile (fun c => c != '"') = '"' :: rest := by
    rw [(takeWhile_append_all ('"' :: rest) hv).2, List.dropWhile_cons]
    simp
  have h2 : zero_or_more (pred any_char (fun c => c != '"')) (value ++ '"' :: rest)
      = .ok ('"' :: rest, value) := by
    unfold zero_or_more
    rw [zom_pred_any _ _ _ (Nat.lt_succ_of_le (takeWhile_length_le _ _)), htk, hdr]
  have h3 : match_literal ['"'] ('"' :: rest) = .ok (rest, ()) :=
    match_literal_append ['"'] rest
  exact map_ok_of (right_ok_of h1 (left_ok_of h2 h3))

theorem attribute_pair_exact {name : List Char} {c : Char} {cs value : List Char}
    (hn : name = c :: cs) (hc : c.isAlpha = true)
    (hcs : ∀ x ∈ cs, isIdentRest x = true)
    (hv : ∀ x ∈ value, (x != '"') = true) (rest : List Char) :
    attribute_pair (name ++ '=' :: '"' :: (value ++ '"' :: rest))
      = .ok (rest, (String.mk name, String.mk value)) := by
  unfold attribute_pair
  have h1 : identifier (name ++ '=' :: '"' :: (value ++ '"' :: rest))
      = .ok ('=' :: '"' :: (value ++ '"' :: rest), String.mk name) :=
    identifier_stop hn hc hcs _ (fun d t' hd => by cases hd; decide)
  have h2 : match_literal ['='] ('=' :: '"' :: (value ++ '"' :: rest))
      = .ok ('"' :: (value ++ '"' :: rest), ()) := match_literal_append ['='] _
  exact pair_ok_of h1 (right_ok_of h2 (quoted_string_exact hv rest))

/-- Text denoting an attribute list: each attribute is preceded by
non-empty whitespace, has a valid identifier name and a quote-free value;
`attrs` is the denoted pair sequence in source order (duplicates are
allowed since names are unconstrained across entries). -/
inductive AttrsText : List Char → List (String × String) → Prop where
  | nil : AttrsText [] []
  | cons {ws name value t : List Char} {c : Char} {cs : List Char}
      {attrs : List (String × String)} :
      AllWS ws → ws ≠ [] →
      name = c :: cs → c.isAlpha = true → (∀ x ∈ cs, isIdentRest x = true) →
      (∀ x ∈ value, (x != '"') = true) →
      AttrsText t attrs →
      AttrsText (ws ++ name ++ '=' :: '"' :: value ++ '"' :: t)
        ((String.mk name, String.mk value) :: attrs)

theorem attrsText_len {a : List Char} {attrs : List (String × String)}
    (h : AttrsText a attrs) : attrs.length ≤ a.length := by
  induction h with
  | nil => exact Nat.le_refl _
  | @cons ws name value t c cs attrs hws hne hn hc hcs hv _ ih =>
    have hws1 : 1 ≤ ws.length := by
      cases ws
      · exact absurd rfl hne
      · simp
    simp only [List.length_cons, List.length_append]
    omega

theorem attrsText_head {a : List Char} {attrs : List (String × String)}
    (h : AttrsText a attrs) : a = [] ∨ ∃ w aw, a = w :: aw ∧ w.isWhitespace = true := by
  cases h with
  | nil => exact Or.inl rfl
  | @cons ws name value t c cs attrs hws hne hn hc hcs hv ht =>
    obtain ⟨w, ws', hw⟩ := List.exists_cons_of_ne_nil hne
    subst hw
    exact Or.inr ⟨w, ws' ++ name ++ '=' :: '"' :: value ++ '"' :: t,
      by simp, hws w (List.mem_cons_self _ _)⟩

theorem attrs_zom {a : List Char} {attrs : List (String × String)}
    (h : AttrsText a attrs) :
    ∀ (rest : List Char), HeadNotWS rest → ∀ fuel, attrs.length < fuel →
      zom (right space1 attribute_pair) fuel (a ++ rest) = (rest, attrs) := by
  induction h with
  | nil =>
    intro rest hrest fuel hfuel
    match fuel, hfuel with
    | f + 1, _ =>
      rw [zom]
      have hstop : right space1 attribute_pair rest = .error rest := by
        refine right_err_fst ?_
        match rest with
        | [] => exact space1_nil
        | c :: r => exact space1_cons_not r (hrest c r rfl)
      rw [List.nil_append, hstop]
  | @cons ws name value t c cs attrs hws hne hn hc hcs hv ht ih =>
    intro rest hrest fuel hfuel
    match fuel, hfuel with
    | f + 1, hf =>
      rw [zom]
      have hsp : space1 ((ws ++ name ++ '=' :: '"' :: value ++ '"' :: t) ++ rest)
          = .ok (name ++ '=' :: '"' :: value ++ '"' :: (t ++ rest), ws) := by
        match ws, hne with
        | w :: ws', _ =>
          have hw : w.isWhitespace = true := hws w (List.mem_cons_self _ _)
          have harr : ((w :: ws') ++ name ++ '=' :: '"' :: value ++ '"' :: t) ++ rest
              = w :: (ws' ++ (name ++ '=' :: '"' :: value ++ '"' :: (t ++ rest))) := by
            simp
          rw [harr, space1_cons_ws _ hw]
          have hname : name ++ '=' :: '"' :: value ++ '"' :: (t ++ rest)
              = c :: (cs ++ '=' :: '"' :: value ++ '"' :: (t ++ rest)) := by
            rw [hn]; simp
          have hcws : c.isWhitespace = false := alpha_not_ws hc
          have hall : ∀ x ∈ ws', x.isWhitespace = true :=
            fun x hx => hws x (List.mem_cons_of_mem _ hx)
          have h1 : (w :: (ws' ++ (name ++ '=' :: '"' :: value ++ '"' :: (t ++ rest)))).takeWhile
              (fun x => x.isWhitespace) = w :: ws' := by
            rw [List.takeWhile_cons]
            simp only [hw, if_true]
            rw [(takeWhile_append_all _ (fun x hx => by simp [hall x hx])).1]
            rw [hname, List.takeWhile_cons]
            simp [hcws]
          have h2 : (w :: (ws' ++ (name ++ '=' :: '"' :: value ++ '"' :: (t ++ rest)))).dropWhile
              (fun x => x.isWhitespace) = name ++ '=' :: '"' :: value ++ '"' :: (t ++ rest) := by
            rw [List.dropWhile_cons]
            simp only [hw, if_true]
            rw [(takeWhile_append_all _ (fun x hx => by simp [hall x hx])).2]
            rw [hname, List.dropWhile_cons]
            simp [hcws]
          rw [h1, h2]
      have hap : attribute_pair (name ++ '=' :: '"' :: value ++ '"' :: (t ++ rest))
          = .ok (t ++ rest, (String.mk name, String.mk value)) := by
        have := attribute_pair_exact hn hc hcs hv (t ++ rest)
        simpa using this
      have hstep : right space1 attribute_pair
          ((ws ++ name ++ '=' :: '"' :: value ++ '"' :: t) ++ rest)
          = .ok (t ++ rest, (String.mk name, String.mk value)) :=
        right_ok_of hsp hap
      rw [hstep]
      dsimp only
      simp only [List.length_cons, Nat.succ_lt_succ_iff] at hf
      rw [ih rest hrest f hf]

/-- The `attributes` parser consumes exactly an attribute-list text and
produces its pair sequence, in order. -/
theorem attributes_parse {a : List Char} {attrs : List (String × String)}
    (h : AttrsText a attrs) (rest : List Char) (hrest : HeadNotWS rest) :
    attributes (a ++ rest) = .ok (rest, attrs) := by
  unfold attributes zero_or_more
  have hlen : attrs.length < (a ++ rest).length + 1 := by
    have := attrsText_len h
    simp only [List.length_append]
    omega
  rw [attrs_zom h rest hrest _ hlen]

/-! ### Exact-parse and failure lemmas for the element grammar -/

theorem element_start_exact {name : List Char} {c : Char} {cs a : List Char}
    {attrs : List (String × String)}
    (hn : name = c :: cs) (hc : c.isAlpha = true)
    (hcs : ∀ x ∈ cs, isIdentRest x = true)
    (ha : AttrsText a attrs) (rest : List Char)
    (hrest1 : HeadNotWS rest) (hrest2 : HeadNotIdent rest) :
    element_start ('<' :: (name ++ (a ++ rest))) = .ok (rest, (String.mk name, attrs)) := by
  unfold element_start
  have h1 : match_literal ['<'] ('<' :: (name ++ (a ++ rest)))
      = .ok (name ++ (a ++ rest), ()) := match_literal_append ['<'] _
  have hti : HeadNotIdent (a ++ rest) := by
    rcases attrsText_head ha with h0 | ⟨w, aw, h0, hww⟩
    · subst h0
      simpa using hrest2
    · subst h0
      intro d t' hd
      injection hd with hd1 _
      subst hd1
      exact ws_not_identRest hww
  have h2 : identifier (name ++ (a ++ rest)) = .ok (a ++ rest, String.mk name) :=
    identifier_stop hn hc hcs _ hti
  have h3 : attributes (a ++ rest) = .ok (rest, attrs) :=
    attributes_parse ha rest hrest1
  exact right_ok_of h1 (pair_ok_of h2 h3)

theorem single_element_exact {name : List Char} {c : Char} {cs a : List Char}
    {attrs : List (String × String)}
    (hn : name = c :: cs) (hc : c.isAlpha = true)
    (hcs : ∀ x ∈ cs, isIdentRest x = true)
    (ha : AttrsText a attrs) (rest : List Char) :
    single_element ('<' :: (name ++ (a ++ '/' :: '>' :: rest)))
      = .ok (rest, Element.mk (String.mk name) attrs []) := by
  unfold single_element
  have h1 : element_start ('<' :: (name ++ (a ++ '/' :: '>' :: rest)))
      = .ok ('/' :: '>' :: rest, (String.mk name, attrs)) :=
    element_start_exact hn hc hcs ha _
      (fun d t' hd => by cases hd; decide)
      (fun d t' hd => by cases hd; decide)
  have h2 : match_literal ['/', '>'] ('/' :: '>' :: rest) = .ok (rest, ()) :=
    match_literal_append ['/', '>'] rest
  exact map_ok_of (left_ok_of h1 h2)

theorem open_element_exact {name : List Char} {c : Char} {cs a : List Char}
    {attrs : List (String × String)}
    (hn : name = c :: cs) (hc : c.isAlpha = true)
    (hcs : ∀ x ∈ cs, isIdentRest x = true)
    (ha : AttrsText a attrs) (rest : List Char) :
    open_element ('<' :: (name ++ (a ++ '>' :: rest)))
      = .ok (rest, Element.mk (String.mk name) attrs []) := by
  unfold open_element
  have h1 : element_start ('<' :: (name ++ (a ++ '>' :: rest)))
      = .ok ('>' :: rest, (String.mk name, attrs)) :=
    element_start_exact hn hc hcs ha _
      (fun d t' hd => by cases hd; decide)
      (fun d t' hd => by cases hd; decide)
  have h2 : match_literal ['>'] ('>' :: rest) = .ok (rest, ()) :=
    match_literal_append ['>'] rest
  exact map_ok_of (left_ok_of h1 h2)

theorem close_element_exact {name : List Char} {c : Char} {cs : List Char}
    (hn : name = c :: cs) (hc : c.isAlpha = true)
    (hcs : ∀ x ∈ cs, isIdentRest x = true) (rest : List Char) :
    close_element (String.mk name) ('<' :: '/' :: (name ++ '>' :: rest))
      = .ok (rest, String.mk name) := by
  unfold close_element
  have h1 : match_literal ['<', '/'] ('<' :: '/' :: (name ++ '>' :: rest))
      = .ok (name ++ '>' :: rest, ()) := match_literal_append ['<', '/'] _
  have h2 : identifier (name ++ '>' :: rest) = .ok ('>' :: rest, String.mk name) :=
    identifier_stop hn hc hcs _ (fun d t' hd => by cases hd; decide)
  have h3 : match_literal ['>'] ('>' :: rest) = .ok (rest, ()) :=
    match_literal_append ['>'] rest
  exact pred_ok_of (right_ok_of h1 (left_ok_of h2 h3)) (by simp)

theorem identifier_fail {x : List Char}
    (hx : ∀ d x', x = d :: x' → d.isAlpha = false) : identifier x = .error x := by
  unfold identifier
  match x with
  | [] => rfl
  | d :: x' =>
    have := hx d x' rfl
    simp [this]

theorem element_start_fail_not_alpha {x : List Char}
    (hx : ∀ d x', x = d :: x' → d.isAlpha = false) :
    element_start ('<' :: x) = .error x := by
  unfold element_start
  exact right_err_snd (match_literal_append ['<'] x) (pair_err_fst (identifier_fail hx))

theorem inner_fail_no_lt {i : List Char} (n : Nat)
    (h : List.isPrefixOf ['<'] i = false) :
    either single_element (parent_elementF n) i = .error i := by
  have hml : match_literal ['<'] i = .error i := match_literal_not_prefix h
  have hes : element_start i = .error i := right_err_fst hml
  have hs : single_element i = .error i := map_err_of (left_err_fst hes)
  have ho : open_element i = .error i := map_err_of (left_err_fst hes)
  rw [either_err_of hs]
  unfold parent_elementF
  exact and_then_err_of ho

theorem inner_fail_not_alpha {x : List Char} (n : Nat)
    (hx : ∀ d x', x = d :: x' → d.isAlpha = false) :
    either single_element (parent_elementF n) ('<' :: x) = .error x := by
  have hes := element_start_fail_not_alpha hx
  have hs : single_element ('<' :: x) = .error x := map_err_of (left_err_fst hes)
  have ho : open_element ('<' :: x) = .error x := map_err_of (left_err_fst hes)
  rw [either_err_of hs]
  unfold parent_elementF
  exact and_then_err_of ho

/-- On all-whitespace input, the element parser fails. -/
theorem elementF_ws_err {w : List Char} (hw : AllWS w) (n : Nat) :
    elementF (n + 1) w = .error [] := by
  rw [elementF_succ, whitespace_wrap_eq, allWS_dropWhile hw,
    inner_fail_no_lt n (by rfl)]

/-- At a closing tag, the element parser fails (the slash is not a valid
identifier start). -/
theorem elementF_close_err (n : Nat) (r : List Char) :
    elementF (n + 1) ('<' :: '/' :: r) = .error ('/' :: r) := by
  rw [elementF_succ, whitespace_wrap_eq]
  have hdr : ('<' :: '/' :: r).dropWhile (fun c => c.isWhitespace) = '<' :: '/' :: r := by
    rw [List.dropWhile_cons]
    simp
  rw [hdr, inner_fail_not_alpha n (fun d x' hd => by cases hd; decide)]

/-- Leading whitespace is transparent to the element parser. -/
theorem elementF_ws_prepend {w : List Char} (hw : AllWS w) (n : Nat) (i : List Char) :
    elementF (n + 1) (w ++ i) = elementF (n + 1) i := by
  rw [elementF_succ, whitespace_wrap_eq, whitespace_wrap_eq, dropWhile_ws_append hw]

/-! ### The rendering relation: texts that denote an element tree -/

/-- `Renders t (.inl e)` means the text `t` denotes the element `e` under
the grammar, for some choice of internal whitespace; `Renders t (.inr es)`
means `t` is a sequence of sibling child texts (each optionally followed by
whitespace) denoting the children list `es`. Whitespace before the closing
tag is carried by the last child, so a childless parent allows none — which
is exactly what the code accepts. -/
inductive Renders : List Char → Element ⊕ List Element → Prop where
  | single {name : List Char} {c : Char} {cs a : List Char}
      {attrs : List (String × String)} :
      name = c :: cs → c.isAlpha = true → (∀ x ∈ cs, isIdentRest x = true) →
      AttrsText a attrs →
      Renders ('<' :: (name ++ (a ++ ['/', '>'])))
        (.inl (Element.mk (String.mk name) attrs []))
  | parent {name : List Char} {c : Char} {cs a w0 cc : List Char}
      {attrs : List (String × String)} {kids : List Element} :
      name = c :: cs → c.isAlpha = true → (∀ x ∈ cs, isIdentRest x = true) →
      AttrsText a attrs →
      AllWS w0 → (kids = [] → w0 = []) →
      Renders cc (.inr kids) →
      Renders ('<' :: (name ++ (a ++ '>' :: (w0 ++ (cc ++ '<' :: '/' :: (name ++ ['>']))))))
        (.inl (Element.mk (String.mk name) attrs kids))
  | cnil : Renders [] (.inr [])
  | ccons {t w cc : List Char} {e : Element} {es : List Element} :
      Renders t (.inl e) → AllWS w → Renders cc (.inr es) →
      Renders (t ++ (w ++ cc)) (.inr (e :: es))

theorem renders_inl_head {t : List Char} {e : Element}
    (h : Renders t (.inl e)) : ∃ u, t = '<' :: u := by
  cases h with
  | single hn hc hcs ha => exact ⟨_, rfl⟩
  | parent hn hc hcs ha hw0 hw0e hcc => exact ⟨_, rfl⟩

theorem renders_inr_head {cc : List Char} {es : List Element}
    (h : Renders cc (.inr es)) : cc = [] ∨ ∃ u, cc = '<' :: u := by
  cases h with
  | cnil => exact Or.inl rfl
  | @ccons t w cc e es ht hw hcc =>
    obtain ⟨u, hu⟩ := renders_inl_head ht
    subst hu
    exact Or.inr ⟨u ++ (w ++ cc), by simp⟩

theorem renders_dropWhile {cc : List Char} {es : List Element}
    (hcc : Renders cc (.inr es)) (r : List Char) :
    (cc ++ '<' :: '/' :: r).dropWhile (fun c => c.isWhitespace)
      = cc ++ '<' :: '/' :: r := by
  have hlt : ('<').isWhitespace = false := by decide
  rcases renders_inr_head hcc with h | ⟨u, h⟩ <;> subst h
  · rw [List.nil_append, List.dropWhile_cons]
    simp [hlt]
  · rw [List.cons_append, List.dropWhile_cons]
    simp [hlt]

/-- Length facts carried along the rendering relation. -/
def RendersLen : List Char → Element ⊕ List Element → Prop
  | t, .inl _ => 1 ≤ t.length
  | t, .inr es => es.length ≤ t.length

theorem renders_len {t : List Char} {s : Element ⊕ List Element}
    (h : Renders t s) : RendersLen t s := by
  induction h with
  | single hn hc hcs ha => show 1 ≤ _; simp
  | parent hn hc hcs ha hw0 hw0e hcc ihcc => show 1 ≤ _; simp
  | cnil => show ([] : List Element).length ≤ ([] : List Char).length; simp
  | @ccons t w cc e es ht hw hcc iht ihcc =>
    show (e :: es).length ≤ (t ++ (w ++ cc)).length
    have h1 : 1 ≤ t.length := iht
    have h2 : es.length ≤ cc.length := ihcc
    simp only [List.length_cons, List.length_append]
    omega

/-- The statement proved about texts rendering one element. -/
def RendersOkE (t : List Char) (e : Element) : Prop :=
  ∀ (n : Nat) (rest : List Char), t.length < n →
    elementF n (t ++ rest) = .ok (rest.dropWhile (fun c => c.isWhitespace), e)

/-- The statement proved about texts rendering a children sequence. -/
def RendersOkC (cc : List Char) (es : List Element) : Prop :=
  ∀ (n fuel : Nat) (w0 r : List Char), cc.length < n → es.length < fuel →
    AllWS w0 → (es = [] → w0 = []) →
    zom (elementF n) fuel (w0 ++ (cc ++ '<' :: '/' :: r)) = ('<' :: '/' :: r, es)

/-- Combined motive over the sum index. -/
def RendersOk : List Char → Element ⊕ List Element → Prop
  | t, .inl e => RendersOkE t e
  | t, .inr es => RendersOkC t es

theorem isPrefixOf_cons_false {a b : Char} {as bs : List Char}
    (h : (a == b) = false) : List.isPrefixOf (a :: as) (b :: bs) = false := by
  simp only [List.isPrefixOf, h, Bool.false_and]

/-- The round-trip theorem: a rendering text parses, with any following
input, to exactly the denoted value, consuming the text plus the following
input's leading whitespace. -/
theorem renders_parse {t : List Char} {s : Element ⊕ List Element}
    (h : Renders t s) : RendersOk t s := by
  induction h with
  | @single name c cs a attrs hn hc hcs ha =>
    intro n rest hlen
    match n, hlen with
    | n + 1, hlen =>
      have harr : ('<' :: (name ++ (a ++ ['/', '>']))) ++ rest
          = '<' :: (name ++ (a ++ '/' :: '>' :: rest)) := by simp
      rw [harr, elementF_succ, whitespace_wrap_eq]
      have hdr : ('<' :: (name ++ (a ++ '/' :: '>' :: rest))).dropWhile
          (fun c => c.isWhitespace) = '<' :: (name ++ (a ++ '/' :: '>' :: rest)) := by
        rw [List.dropWhile_cons]
        simp
      rw [hdr, either_ok_of (single_element_exact hn hc hcs ha rest)]
  | @parent name c cs a w0 cc attrs kids hn hc hcs ha hw0 hw0e hcc ihcc =>
    intro n rest hlen
    match n, hlen with
    | n + 1, hlen =>
      have harr : ('<' :: (name ++ (a ++ '>' ::
            (w0 ++ (cc ++ '<' :: '/' :: (name ++ ['>'])))))) ++ rest
          = '<' :: (name ++ (a ++ '>' ::
            (w0 ++ (cc ++ '<' :: '/' :: (name ++ '>' :: rest))))) := by simp
      rw [harr, elementF_succ, whitespace_wrap_eq]
      have hdr : ('<' :: (name ++ (a ++ '>' ::
            (w0 ++ (cc ++ '<' :: '/' :: (name ++ '>' :: rest)))))).dropWhile
          (fun c => c.isWhitespace)
          = '<' :: (name ++ (a ++ '>' ::
            (w0 ++ (cc ++ '<' :: '/' :: (name ++ '>' :: rest))))) := by
        rw [List.dropWhile_cons]
        simp
      rw [hdr]
      have hes := element_start_exact hn hc hcs ha
        ('>' :: (w0 ++ (cc ++ '<' :: '/' :: (name ++ '>' :: rest))))
        (fun d t' hd => by cases hd; decide)
        (fun d t' hd => by cases hd; decide)
      have hml : match_literal ['/', '>']
          ('>' :: (w0 ++ (cc ++ '<' :: '/' :: (name ++ '>' :: rest))))
          = .error ('>' :: (w0 ++ (cc ++ '<' :: '/' :: (name ++ '>' :: rest)))) :=
        match_literal_not_prefix (isPrefixOf_cons_false (by decide))
      have hsf : single_element ('<' :: (name ++ (a ++ '>' ::
            (w0 ++ (cc ++ '<' :: '/' :: (name ++ '>' :: rest))))))
          = .error ('>' :: (w0 ++ (cc ++ '<' :: '/' :: (name ++ '>' :: rest)))) := by
        unfold single_element
        exact map_err_of (left_err_snd hes hml)
      rw [either_err_of hsf]
      have hccn : cc.length < n := by
        have := hlen
        have hname : 1 ≤ name.length := by
          subst hn; simp
        simp only [List.length_cons, List.length_append] at this
        omega
      have hkids : kids.length <
          (w0 ++ (cc ++ '<' :: '/' :: (name ++ '>' :: rest))).length + 1 := by
        have hk : kids.length ≤ cc.length := renders_len hcc
        simp only [List.length_cons, List.length_append]
        omega
      have hz : zero_or_more (elementF n)
          (w0 ++ (cc ++ '<' :: '/' :: (name ++ '>' :: rest)))
          = .ok ('<' :: '/' :: (name ++ '>' :: rest), kids) := by
        unfold zero_or_more
        rw [ihcc n _ w0 (name ++ '>' :: rest) hccn hkids hw0 hw0e]
      have hcl := close_element_exact hn hc hcs rest
      have hpar : parent_elementF n ('<' :: (name ++ (a ++ '>' ::
            (w0 ++ (cc ++ '<' :: '/' :: (name ++ '>' :: rest))))))
          = .ok (rest, Element.mk (String.mk name) attrs kids) := by
        unfold parent_elementF
        rw [and_then_ok_of (open_element_exact hn hc hcs ha _)]
        dsimp only [Element.name, Element.attributes]
        exact map_ok_of (left_ok_of hz hcl)
      rw [hpar]
  | cnil =>
    intro n fuel w0 r hn hfuel hws hw0
    rw [hw0 rfl]
    match n, hn, fuel, hfuel with
    | n + 1, _, fuel + 1, _ =>
      rw [List.nil_append, List.nil_append, zom, elementF_close_err n r]
  | @ccons t w cc e es ht hw hcc iht ihcc =>
    intro n fuel w0 r hn hfuel hws _
    match n, hn, fuel, hfuel with
    | n + 1, hn, fuel + 1, hfuel =>
      have harr : w0 ++ ((t ++ (w ++ cc)) ++ '<' :: '/' :: r)
          = w0 ++ (t ++ (w ++ (cc ++ '<' :: '/' :: r))) := by simp
      rw [harr, zom, elementF_ws_prepend hws n]
      have htlen : t.length < n + 1 := by
        have := hn
        simp only [List.length_append] at this
        omega
      rw [iht (n + 1) (w ++ (cc ++ '<' :: '/' :: r)) htlen]
      have hdr : (w ++ (cc ++ '<' :: '/' :: r)).dropWhile (fun c => c.isWhitespace)
          = cc ++ '<' :: '/' :: r := by
        rw [dropWhile_ws_append hw, renders_dropWhile hcc]
      rw [hdr]
      have hccn : cc.length < n + 1 := by
        have := hn
        simp only [List.length_append] at this
        omega
      have hesf : es.length < fuel := by
        simpa using hfuel
      have := ihcc (n + 1) fuel [] r hccn hesf (fun c hc => by cases hc) (fun _ => rfl)
      rw [List.nil_append] at this
      dsimp only
      rw [this]

/-- A rendering text, wrapped in arbitrary whitespace, parses to exactly
its denoted element with no remaining input. -/
theorem renders_element {t : List Char} {e : Element} (h : Renders t (.inl e))
    (w1 w2 : List Char) (h1 : AllWS w1) (h2 : AllWS w2) :
    element (w1 ++ (t ++ w2)) = .ok ([], e) := by
  unfold element
  rw [elementF_ws_prepend h1]
  have ht : t.length < (w1 ++ (t ++ w2)).length + 1 := by
    simp only [List.length_append]
    omega
  have := renders_parse h
  rw [this _ w2 ht, allWS_dropWhile h2]

/-- Leading whitespace never changes the result of `element` at all. -/
theorem element_ws_prepend {w : List Char} (hw : AllWS w) (d : List Char) :
    element (w ++ d) = element d := by
  unfold element
  rw [elementF_ws_prepend hw]
  refine elementF_congr _ _ d ?_ (Nat.lt_succ_self _)
  simp only [List.length_append]
  omega

instance (l : List Char) : Decidable (AllWS l) :=
  List.decidableBAll _ l

/-! ### Claim theorems -/

/-- C1: For the document consisting of `<top>`, `<bottom/>`, `</middle>`
(with the surrounding whitespace of the repository test), the `element`
parser fails and the failure view it returns is exactly the slice
`</middle>`. -/
theorem claim_C1_mismatched_close :
    element ("\n        <top>\n            <bottom/>\n        </middle>".toList)
      = .error ("</middle>".toList) := by
  rfl

/-- C2: `either(p1, p2)` runs `p1` on the original input and returns its
result on success; on failure of `p1` it returns exactly the result of
`p2` applied to the same original input. -/
theorem claim_C2_either {α : Type} (p1 p2 : Parser α) (i : List Char) :
    (∀ e, p1 i = .error e → either p1 p2 i = p2 i) ∧
    (∀ res, p1 i = .ok res → either p1 p2 i = .ok res) := by
  constructor
  · intro e h
    exact either_err_of h
  · intro res h
    unfold either
    rw [h]

theorem claim_C2_witness :
    match_literal ['a'] ['b'] = .error ['b'] ∧
    either (match_literal ['a']) (match_literal ['b']) ['b']
      = match_literal ['b'] ['b'] :=
  ⟨by rfl, (claim_C2_either (match_literal ['a']) (match_literal ['b']) ['b']).1
    ['b'] (by rfl)⟩

/-- C3: `pred(p, q)` rejects a parsed value failing the test by failing
with the original input restored as the failure view, passes successes
whose value satisfies the test through unchanged, and propagates `p`'s
failures. -/
theorem claim_C3_pred {α : Type} (p : Parser α) (q : α → Bool) (i : List Char) :
    (∀ r v, p i = .ok (r, v) → q v = false → pred p q i = .error i) ∧
    (∀ r v, p i = .ok (r, v) → q v = true → pred p q i = .ok (r, v)) ∧
    (∀ e, p i = .error e → pred p q i = .error e) :=
  ⟨fun _ _ h hq => pred_reject h hq,
   fun _ _ h hq => pred_ok_of h hq,
   fun _ h => pred_err_of h⟩

theorem claim_C3_witness :
    pred any_char (fun c => c == 'o') ("lol".toList) = .error ("lol".toList) :=
  (claim_C3_pred any_char (fun c => c == 'o') ("lol".toList)).1
    ("ol".toList) 'l' (by rfl) (by decide)

/-- C4: when `p1` succeeds leaving remainder `r1`, `pair(p1, p2)` fails
with `p2`'s failure view if `p2` fails on `r1` (the input consumed by `p1`
is not restored), and on success of `p2` produces the pair of both values
with the input remaining after `p2`. -/
theorem claim_C4_pair {α β : Type} (p1 : Parser α) (p2 : Parser β)
    (i r1 : List Char) (v1 : α) (h1 : p1 i = .ok (r1, v1)) :
    (∀ e, p2 r1 = .error e → pair p1 p2 i = .error e) ∧
    (∀ r2 v2, p2 r1 = .ok (r2, v2) → pair p1 p2 i = .ok (r2, (v1, v2))) :=
  ⟨fun _ h2 => pair_err_snd h1 h2, fun _ _ h2 => pair_ok_of h1 h2⟩

theorem claim_C4_witness :
    pair (match_literal ['<']) identifier ("<!oops".toList)
      = .error ("!oops".toList) :=
  (claim_C4_pair (match_literal ['<']) identifier ("<!oops".toList)
    ("!oops".toList) () (by rfl)).1 ("!oops".toList) (by rfl)

/-- C5: `identifier` succeeds exactly when the input starts with an ASCII
alphabetic character; on success the consumed text is that character plus
the maximal following run of ASCII alphanumeric or hyphen characters, the
remainder is the rest of the input, and the produced string is the
consumed text. -/
theorem claim_C5_identifier (i : List Char) :
    ((∃ r v, identifier i = .ok (r, v)) ↔
      (∃ c rest, i = c :: rest ∧ c.isAlpha = true)) ∧
    (∀ r v, identifier i = .ok (r, v) →
      v.data ++ r = i ∧
      (∃ c cs, v.data = c :: cs ∧ c.isAlpha = true ∧
        (∀ x ∈ cs, isIdentRest x = true)) ∧
      (∀ d r', r = d :: r' → isIdentRest d = false)) := by
  match i with
  | [] =>
    refine ⟨⟨?_, ?_⟩, ?_⟩
    · rintro ⟨r, v, h⟩
      cases h
    · rintro ⟨c, rest, h, _⟩
      cases h
    · intro r v h
      cases h
  | c :: rest =>
    by_cases hc : c.isAlpha
    · have hid : identifier (c :: rest)
          = .ok (rest.dropWhile isIdentRest, String.mk (c :: rest.takeWhile isIdentRest)) := by
        unfold identifier
        simp [hc]
      refine ⟨⟨fun _ => ⟨c, rest, rfl, hc⟩, fun _ => ⟨_, _, hid⟩⟩, ?_⟩
      intro r v h
      rw [hid] at h
      injection h with h'
      injection h' with hr hv
      subst hr
      subst hv
      refine ⟨?_, ⟨c, rest.takeWhile isIdentRest, rfl, hc,
        fun x hx => mem_takeWhile_true hx⟩, ?_⟩
      · show (c :: rest.takeWhile isIdentRest) ++ rest.dropWhile isIdentRest = c :: rest
        rw [List.cons_append, List.takeWhile_append_dropWhile]
      · intro d r' hd
        exact dropWhile_head_false hd
    · have hc' : c.isAlpha = false := by
        cases h : c.isAlpha
        · rfl
        · exact absurd h hc
      have hid : identifier (c :: rest) = .error (c :: rest) := by
        unfold identifier
        simp [hc']
      refine ⟨⟨?_, ?_⟩, ?_⟩
      · rintro ⟨r, v, h⟩
        rw [hid] at h
        cases h
      · rintro ⟨c2, rest2, heq, hc2⟩
        injection heq with he1 he2
        subst he1
        rw [hc2] at hc'
        cases hc'
      · intro r v h
        rw [hid] at h
        cases h

theorem claim_C5_witness :
    ∃ r v, identifier ("i-am-an-identifier".toList) = .ok (r, v) :=
  (claim_C5_identifier ("i-am-an-identifier".toList)).1.mpr
    ⟨'i', "-am-an-identifier".toList, rfl, by decide⟩

/-- C6: the view returned by `element` is a suffix of the input in both
outcomes: on success the remaining input is a suffix of the original
input, and on failure the failure view is also a suffix. -/
theorem claim_C6_element_suffix (i : List Char) :
    (∀ r v, element i = .ok (r, v) → r <:+ i) ∧
    (∀ e, element i = .error e → e <:+ i) :=
  ⟨fun r v h => sound_element.1 i r v h, fun e h => sound_element.2 i e h⟩

theorem claim_C6_witness :
    (("x".toList : List Char) <:+ "<a/>x".toList) ∧
    (("x".toList : List Char) <:+ "x".toList) :=
  ⟨(claim_C6_element_suffix ("<a/>x".toList)).1 ("x".toList)
      (Element.mk "a" [] []) (by rfl),
   (claim_C6_element_suffix ("x".toList)).2 ("x".toList) (by rfl)⟩

/-- C7: the parsed element's attribute sequence is exactly the pair
sequence of the source text, in source order; duplicate names are neither
deduplicated nor rejected, since `AttrsText` places no distinctness
constraint on the names. -/
theorem claim_C7_attribute_order {name : List Char} {c : Char} {cs a : List Char}
    {attrs : List (String × String)}
    (hn : name = c :: cs) (hc : c.isAlpha = true)
    (hcs : ∀ x ∈ cs, isIdentRest x = true) (ha : AttrsText a attrs) :
    element ('<' :: (name ++ (a ++ ['/', '>'])))
        = .ok ([], Element.mk (String.mk name) attrs []) ∧
    (Element.mk (String.mk name) attrs []).attributes = attrs := by
  constructor
  · have h := renders_element (Renders.single hn hc hcs ha)
      [] [] (fun x hx => by cases hx) (fun x hx => by cases hx)
    simpa using h
  · rfl

theorem claim_C7_witness :
    element ("<div a=\"1\" a=\"2\"/>".toList)
      = .ok ([], Element.mk "div" [("a", "1"), ("a", "2")] []) := by
  have ha2 : AttrsText ([' '] ++ ['a'] ++ '=' :: '"' :: ['2'] ++ '"' :: [])
      [(String.mk ['a'], String.mk ['2'])] :=
    @AttrsText.cons [' '] ['a'] ['2'] [] 'a' [] []
      (by show AllWS [' ']; decide) (by decide) rfl (by decide)
      (by intro x hx; cases hx) (by decide) AttrsText.nil
  have ha1 : AttrsText
      ([' '] ++ ['a'] ++ '=' :: '"' :: ['1'] ++ '"' ::
        ([' '] ++ ['a'] ++ '=' :: '"' :: ['2'] ++ '"' :: []))
      [(String.mk ['a'], String.mk ['1']), (String.mk ['a'], String.mk ['2'])] :=
    @AttrsText.cons [' '] ['a'] ['1']
      ([' '] ++ ['a'] ++ '=' :: '"' :: ['2'] ++ '"' :: []) 'a' []
      [(String.mk ['a'], String.mk ['2'])]
      (by show AllWS [' ']; decide) (by decide) rfl (by decide)
      (by intro x hx; cases hx) (by decide) ha2
  have h := (@claim_C7_attribute_order ['d', 'i', 'v'] 'd' ['i', 'v']
      ([' '] ++ ['a'] ++ '=' :: '"' :: ['1'] ++ '"' ::
        ([' '] ++ ['a'] ++ '=' :: '"' :: ['2'] ++ '"' :: []))
      [(String.mk ['a'], String.mk ['1']), (String.mk ['a'], String.mk ['2'])]
      rfl (by decide) (by decide) ha1).1
  exact h

/-- C9: parsing makes strict progress (a successful `open_element` always
consumes at least one character), and the fuel-indexed element parser is
independent of its fuel once the fuel exceeds the input length — so the
recursion depth is bounded by the input length and parsing any finite
input terminates. -/
theorem claim_C9_termination (i : List Char) :
    (∀ r el, open_element i = .ok (r, el) → r.length < i.length) ∧
    (∀ n, i.length < n → elementF n i = element i) :=
  ⟨fun _ _ h => open_element_consumes h, fun _ h => elementF_eq_element h⟩

theorem claim_C9_witness :
    (([] : List Char).length < ("<a>".toList).length) ∧
    elementF 100 ("<a/>".toList) = element ("<a/>".toList) :=
  ⟨(claim_C9_termination ("<a>".toList)).1 [] (Element.mk "a" [] []) (by rfl),
   (claim_C9_termination ("<a/>".toList)).2 100 (by decide)⟩

/-- C10: whitespace after an attribute name makes `attribute_pair` fail
(the identifier, the `=` and the opening quote must be adjacent), so
`<div one = "1"/>` is rejected by `element` while `<div one="1"/>` is
accepted. -/
theorem claim_C10_attr_adjacency :
    (∀ (name : List Char) (c : Char) (cs : List Char) (d : Char) (r : List Char),
      name = c :: cs → c.isAlpha = true → (∀ x ∈ cs, isIdentRest x = true) →
      d.isWhitespace = true →
      attribute_pair (name ++ d :: r) = .error (d :: r)) ∧
    element ("<div one = \"1\"/>".toList) = .error (" one = \"1\"/>".toList) ∧
    element ("<div one=\"1\"/>".toList)
      = .ok ([], Element.mk "div" [("one", "1")] []) := by
  refine ⟨?_, by rfl, by rfl⟩
  intro name c cs d r hn hc hcs hd
  have hid : identifier (name ++ d :: r) = .ok (d :: r, String.mk name) :=
    identifier_stop hn hc hcs _
      (fun x t' hx => by
        injection hx with hx1 _
        subst hx1
        exact ws_not_identRest hd)
  have hml : match_literal ['='] (d :: r) = .error (d :: r) := by
    refine match_literal_not_prefix ?_
    match r with
    | [] =>
      refine isPrefixOf_cons_false ?_
      have : ('=' : Char) ≠ d := (ws_ne_char hd (by decide)).symm
      simpa using this
    | x :: r' =>
      refine isPrefixOf_cons_false ?_
      have : ('=' : Char) ≠ d := (ws_ne_char hd (by decide)).symm
      simpa using this
  unfold attribute_pair
  exact pair_err_snd hid (right_err_fst hml)

theorem claim_C10_witness :
    attribute_pair ("one = \"1\"".toList) = .error (" = \"1\"".toList) :=
  (claim_C10_attr_adjacency).1 ("one".toList) 'o' ("ne".toList) ' '
    ("= \"1\"".toList) rfl (by decide) (by decide) (by decide)

/-! ### Appending trailing whitespace: stability lemmas -/

theorem pair_err_inv {p1 : Parser α} {p2 : Parser β} {i e : List Char}
    (h : pair p1 p2 i = .error e) :
    p1 i = .error e ∨ ∃ r1 v1, p1 i = .ok (r1, v1) ∧ p2 r1 = .error e := by
  unfold pair at h
  split at h
  case h_1 rest1 v1 heq1 =>
    split at h
    case h_1 => cases h
    case h_2 e2 heq2 =>
      cases h
      exact Or.inr ⟨rest1, v1, heq1, heq2⟩
  case h_2 e1 heq1 =>
    cases h
    exact Or.inl heq1

theorem right_err_inv {p1 : Parser α} {p2 : Parser β} {i e : List Char}
    (h : right p1 p2 i = .error e) :
    p1 i = .error e ∨ ∃ r1 v1, p1 i = .ok (r1, v1) ∧ p2 r1 = .error e :=
  pair_err_inv (map_err_inv h)

theorem left_err_inv {p1 : Parser α} {p2 : Parser β} {i e : List Char}
    (h : left p1 p2 i = .error e) :
    p1 i = .error e ∨ ∃ r1 v1, p1 i = .ok (r1, v1) ∧ p2 r1 = .error e :=
  pair_err_inv (map_err_inv h)

theorem zero_or_more_pred_any (q : Char → Bool) (i : List Char) :
    zero_or_more (pred any_char q) i = .ok (i.dropWhile q, i.takeWhile q) := by
  unfold zero_or_more
  rw [zom_pred_any _ _ _ (Nat.lt_succ_of_le (takeWhile_length_le _ i))]

theorem takeWhile_eq_of_dropWhile_nil {q : Char → Bool} {l : List Char}
    (h : l.dropWhile q = []) : l.takeWhile q = l := by
  have := List.takeWhile_append_dropWhile (p := q) (l := l)
  rw [h, List.append_nil] at this
  exact this

theorem all_of_dropWhile_nil {q : Char → Bool} {l : List Char}
    (h : l.dropWhile q = []) : ∀ x ∈ l, q x = true := by
  intro x hx
  rw [← takeWhile_eq_of_dropWhile_nil h] at hx
  exact mem_takeWhile_true hx

theorem dropWhile_idem (q : Char → Bool) (l : List Char) :
    (l.dropWhile q).dropWhile q = l.dropWhile q := by
  cases h : l.dropWhile q with
  | nil => rfl
  | cons d ds =>
    rw [List.dropWhile_cons]
    simp [dropWhile_head_false h]

theorem dropWhile_append_dropWhile (q : Char → Bool) (x w : List Char) :
    (x.dropWhile q ++ w).dropWhile q = (x ++ w).dropWhile q := by
  cases h : x.dropWhile q with
  | nil =>
    rw [List.nil_append, (takeWhile_append_all w (all_of_dropWhile_nil h)).2]
  | cons d ds =>
    rw [(takeWhile_append_stop w h).2, List.cons_append, List.dropWhile_cons]
    simp [dropWhile_head_false h]

theorem ws_takeWhile_not_identRest {w : List Char} (hw : AllWS w) :
    w.takeWhile isIdentRest = [] := by
  cases w with
  | nil => rfl
  | cons x xs =>
    rw [List.takeWhile_cons]
    simp [ws_not_identRest (hw x (List.mem_cons_self _ _))]

theorem ws_dropWhile_identRest {w : List Char} (hw : AllWS w) :
    w.dropWhile isIdentRest = w := by
  cases w with
  | nil => rfl
  | cons x xs =>
    rw [List.dropWhile_cons]
    simp [ws_not_identRest (hw x (List.mem_cons_self _ _))]

theorem isPrefixOf_append_ws_false {w : List Char} (hw : AllWS w) :
    ∀ {L a : List Char}, (∀ c ∈ L, c.isWhitespace = false) →
      L.isPrefixOf a = false → L.isPrefixOf (a ++ w) = false := by
  intro L
  induction L with
  | nil => intro a _ h; simp [List.isPrefixOf] at h
  | cons l ls ih =>
    intro a hL h
    match a with
    | [] =>
      rw [List.nil_append]
      match w with
      | [] => exact h
      | x :: xs =>
        refine isPrefixOf_cons_false ?_
        have hne : l ≠ x := by
          have hx : x.isWhitespace = true := hw x (List.mem_cons_self _ _)
          have hl : l.isWhitespace = false := hL l (List.mem_cons_self _ _)
          exact (ws_ne_char hx hl).symm
        simpa using hne
    | b :: bs =>
      rw [List.cons_append]
      by_cases hlb : (l == b) = true
      · have h2 : List.isPrefixOf ls bs = false := by
          simp only [List.isPrefixOf, hlb, Bool.true_and] at h
          exact h
        simp only [List.isPrefixOf, hlb, Bool.true_and]
        exact ih (fun c hc => hL c (List.mem_cons_of_mem _ hc)) h2
      · have hlb' : (l == b) = false := by
          cases h' : (l == b)
          · rfl
          · exact absurd h' hlb
        exact isPrefixOf_cons_false hlb'

theorem match_literal_append_ok {L a r w : List Char} {u : Unit}
    (h : match_literal L a = .ok (r, u)) :
    match_literal L (a ++ w) = .ok (r ++ w, u) := by
  have := match_literal_ok h
  subst this
  rw [List.append_assoc]
  exact match_literal_append L (r ++ w)

theorem match_literal_ws_err {L a w : List Char} (hw : AllWS w)
    (hL : ∀ c ∈ L, c.isWhitespace = false)
    (h : match_literal L a = .error a) :
    match_literal L (a ++ w) = .error (a ++ w) := by
  have hp : L.isPrefixOf a = false := by
    cases hb : L.isPrefixOf a
    · rfl
    · unfold match_literal at h
      rw [if_pos (by simp [hb])] at h
      cases h
  exact match_literal_not_prefix (isPrefixOf_append_ws_false hw hL hp)

theorem identifier_ws_ok {a w r : List Char} {v : String} (hw : AllWS w)
    (h : identifier a = .ok (r, v)) :
    identifier (a ++ w) = .ok (r ++ w, v) := by
  match a with
  | [] => cases h
  | c :: rest =>
    unfold identifier at h ⊢
    by_cases hc : c.isAlpha
    · simp only [hc, if_true] at h
      injection h with h'
      injection h' with hr hv
      subst hr
      subst hv
      rw [List.cons_append]
      simp only [hc, if_true]
      cases hdr : rest.dropWhile isIdentRest with
      | nil =>
        have hall := all_of_dropWhile_nil hdr
        rw [(takeWhile_append_all w hall).1, (takeWhile_append_all w hall).2,
          ws_takeWhile_not_identRest hw, ws_dropWhile_identRest hw]
        simp [takeWhile_eq_of_dropWhile_nil hdr, hdr]
      | cons d ds =>
        rw [(takeWhile_append_stop w hdr).1, (takeWhile_append_stop w hdr).2]
        simp [hdr]
    · simp only [hc, if_false] at h
      cases h

theorem identifier_error_eq {a e : List Char} (h : identifier a = .error e) : e = a := by
  unfold identifier at h
  match a with
  | [] =>
    cases h
    rfl
  | c :: rest =>
    by_cases hc : c.isAlpha
    · simp only [hc, if_true] at h
      cases h
    · simp only [hc, if_false] at h
      cases h
      rfl

theorem identifier_ws_err {a w : List Char} (hw : AllWS w)
    (h : identifier a = .error a) :
    identifier (a ++ w) = .error (a ++ w) := by
  match a with
  | [] =>
    rw [List.nil_append]
    match w with
    | [] => rfl
    | x :: xs =>
      unfold identifier
      simp [ws_not_alpha (hw x (List.mem_cons_self _ _))]
  | c :: rest =>
    unfold identifier at h ⊢
    by_cases hc : c.isAlpha
    · simp only [hc, if_true] at h
      cases h
    · rw [List.cons_append]
      simp [hc]

theorem pred_err_inv {p : Parser α} {q : α → Bool} {i e : List Char}
    (h : pred p q i = .error e) :
    p i = .error e ∨ ∃ r v, p i = .ok (r, v) ∧ q v = false ∧ e = i := by
  unfold pred at h
  split at h
  case h_1 rest v heq =>
    split at h
    case isTrue => cases h
    case isFalse hq =>
      cases h
      exact Or.inr ⟨rest, v, heq, by simpa using hq, rfl⟩
  case h_2 e1 heq =>
    cases h
    exact Or.inl heq

theorem quoted_string_ok_inv {a r : List Char} {v : String}
    (h : quoted_string a = .ok (r, v)) :
    ∃ a1, a = '"' :: a1 ∧ a1.dropWhile (fun c => c != '"') = '"' :: r ∧
      v = String.mk (a1.takeWhile (fun c => c != '"')) := by
  obtain ⟨chars, hin, hv⟩ := map_ok_inv h
  obtain ⟨r1, u, hml1, hleft⟩ := right_ok_inv hin
  have ha := match_literal_ok hml1
  obtain ⟨r2, u2, hz, hml2⟩ := left_ok_inv hleft
  rw [zero_or_more_pred_any] at hz
  injection hz with hz'
  injection hz' with hz1 hz2
  have hr2 := match_literal_ok hml2
  refine ⟨r1, by simpa using ha, ?_, by rw [hv, hz2]⟩
  rw [hz1, hr2]
  simp

theorem quoted_string_ws_ok {a w r : List Char} {v : String} (hw : AllWS w)
    (h : quoted_string a = .ok (r, v)) :
    quoted_string (a ++ w) = .ok (r ++ w, v) := by
  obtain ⟨a1, ha, hdr, hv⟩ := quoted_string_ok_inv h
  subst ha
  subst hv
  rw [List.cons_append]
  unfold quoted_string
  have h1 : match_literal ['"'] ('"' :: (a1 ++ w)) = .ok (a1 ++ w, ()) :=
    match_literal_append ['"'] _
  have h2 : zero_or_more (pred any_char (fun c => c != '"')) (a1 ++ w)
      = .ok ('"' :: (r ++ w), a1.takeWhile (fun c => c != '"')) := by
    rw [zero_or_more_pred_any, (takeWhile_append_stop w hdr).1,
      (takeWhile_append_stop w hdr).2]
  have h3 : match_literal ['"'] ('"' :: (r ++ w)) = .ok (r ++ w, ()) :=
    match_literal_append ['"'] _
  exact map_ok_of (right_ok_of h1 (left_ok_of h2 h3))

theorem ws_dropWhile_ne_quote {w : List Char} (hw : AllWS w) :
    w.dropWhile (fun c => c != '"') = [] := by
  refine List.dropWhile_eq_nil_iff.mpr (fun x hx => ?_)
  have : x ≠ '"' := ws_ne_char (hw x hx) (by decide)
  simpa using this

theorem attributes_ne_err {a e : List Char} (h : attributes a = .error e) : False := by
  unfold attributes zero_or_more at h
  cases h

theorem quoted_string_ws_err {a e w : List Char} (hw : AllWS w)
    (h : quoted_string a = .error e) :
    ∃ e', quoted_string (a ++ w) = .error e' := by
  rcases right_err_inv (map_err_inv h) with h1 | ⟨r1, u, hml1, hleft⟩
  · rw [(match_literal_error h1).1] at h1
    refine ⟨a ++ w, map_err_of (right_err_fst ?_)⟩
    exact match_literal_ws_err hw (by decide) h1
  · have ha := match_literal_ok hml1
    rcases left_err_inv hleft with h2 | ⟨r2, u2, hz, hml2⟩
    · rw [zero_or_more_pred_any] at h2
      cases h2
    · rw [zero_or_more_pred_any] at hz
      injection hz with hz'
      injection hz' with hz1 _
      subst hz1
      cases hdr : r1.dropWhile (fun c => c != '"') with
      | cons d ds =>
        have hd := dropWhile_head_false (q := fun c => c != '"') hdr
        have hd' : d = '"' := by simpa using hd
        subst hd'
        rw [hdr] at hml2
        rw [show ('"' :: ds) = ['"'] ++ ds from rfl, match_literal_append] at hml2
        cases hml2
      | nil =>
        subst ha
        refine ⟨[], ?_⟩
        rw [List.cons_append]
        refine map_err_of (right_err_snd (match_literal_append ['"'] _) ?_)
        have hzext : zero_or_more (pred any_char (fun c => c != '"')) (r1 ++ w)
            = .ok ([], (r1 ++ w).takeWhile (fun c => c != '"')) := by
          rw [zero_or_more_pred_any, (takeWhile_append_all w (all_of_dropWhile_nil hdr)).2,
            ws_dropWhile_ne_quote hw]
        refine left_err_snd hzext ?_
        exact match_literal_not_prefix (by rfl)

theorem attribute_pair_ws_ok {a w r : List Char} {v : String × String} (hw : AllWS w)
    (h : attribute_pair a = .ok (r, v)) :
    attribute_pair (a ++ w) = .ok (r ++ w, v) := by
  obtain ⟨r1, hid, hrest⟩ := pair_ok_inv h
  obtain ⟨r2, u, hml, hqs⟩ := right_ok_inv hrest
  unfold attribute_pair
  have h1 := identifier_ws_ok hw hid
  have h2 := match_literal_append_ok (w := w) hml
  have h3 := quoted_string_ws_ok hw hqs
  have := pair_ok_of h1 (right_ok_of h2 h3)
  simpa using this

theorem attribute_pair_ws_err {a e w : List Char} (hw : AllWS w)
    (h : attribute_pair a = .error e) :
    ∃ e', attribute_pair (a ++ w) = .error e' := by
  rcases pair_err_inv h with h1 | ⟨r1, nm, hid, hrest⟩
  · rw [identifier_error_eq h1] at h1
    exact ⟨a ++ w, pair_err_fst (identifier_ws_err hw h1)⟩
  · rcases right_err_inv hrest with h2 | ⟨r2, u, hml, hqs⟩
    · rw [(match_literal_error h2).1] at h2
      refine ⟨r1 ++ w, pair_err_snd (identifier_ws_ok hw hid) (right_err_fst ?_)⟩
      exact match_literal_ws_err hw (by decide) h2
    · obtain ⟨e', he'⟩ := quoted_string_ws_err hw hqs
      exact ⟨e', pair_err_snd (identifier_ws_ok hw hid)
        (right_err_snd (match_literal_append_ok hml) he')⟩

theorem space1_error_eq {a e : List Char} (h : space1 a = .error e) : e = a := by
  match a with
  | [] =>
    rw [space1_nil] at h
    injection h with h'
    exact h'.symm
  | c :: rest =>
    by_cases hc : c.isWhitespace
    · rw [space1_cons_ws rest hc] at h
      cases h
    · have hc' : c.isWhitespace = false := by
        cases h' : c.isWhitespace
        · rfl
        · exact absurd h' hc
      rw [space1_cons_not rest hc'] at h
      injection h with h'
      exact h'.symm

theorem space1_consumes {a r : List Char} {u : List Char}
    (h : space1 a = .ok (r, u)) : r.length < a.length := by
  match a with
  | [] => rw [space1_nil] at h; cases h
  | c :: rest =>
    by_cases hc : c.isWhitespace
    · rw [space1_cons_ws rest hc] at h
      injection h with h'
      injection h' with hr _
      have : (c :: rest).dropWhile (fun x => x.isWhitespace) = rest.dropWhile (fun x => x.isWhitespace) := by
        rw [List.dropWhile_cons]
        simp [hc]
      rw [this] at hr
      subst hr
      have := (dropWhile_suffix (fun x => x.isWhitespace) rest).length_le
      simp only [List.length_cons]
      omega
    · have hc' : c.isWhitespace = false := by
        cases h' : c.isWhitespace
        · rfl
        · exact absurd h' hc
      rw [space1_cons_not rest hc'] at h
      cases h

theorem space1_ws_ok {a w r u : List Char} (hw : AllWS w)
    (h : space1 a = .ok (r, u)) (hr : r ≠ []) :
    space1 (a ++ w) = .ok (r ++ w, u) := by
  match a with
  | [] => rw [space1_nil] at h; cases h
  | c :: rest =>
    by_cases hc : c.isWhitespace
    · rw [space1_cons_ws rest hc] at h
      injection h with h'
      injection h' with h1 h2
      have hdc : (c :: rest).dropWhile (fun x => x.isWhitespace)
          = rest.dropWhile (fun x => x.isWhitespace) := by
        rw [List.dropWhile_cons]; simp [hc]
      have htc : (c :: rest).takeWhile (fun x => x.isWhitespace)
          = c :: rest.takeWhile (fun x => x.isWhitespace) := by
        rw [List.takeWhile_cons]; simp [hc]
      rw [hdc] at h1
      rw [htc] at h2
      subst h1
      subst h2
      cases hdr : rest.dropWhile (fun x => x.isWhitespace) with
      | nil => exact absurd hdr hr
      | cons d ds =>
        rw [List.cons_append, space1_cons_ws _ hc]
        have h3 := (takeWhile_append_stop w hdr).1
        have h4 := (takeWhile_append_stop w hdr).2
        have hdc2 : (c :: (rest ++ w)).dropWhile (fun x => x.isWhitespace)
            = (rest ++ w).dropWhile (fun x => x.isWhitespace) := by
          rw [List.dropWhile_cons]; simp [hc]
        have htc2 : (c :: (rest ++ w)).takeWhile (fun x => x.isWhitespace)
            = c :: (rest ++ w).takeWhile (fun x => x.isWhitespace) := by
          rw [List.takeWhile_cons]; simp [hc]
        rw [hdc2, htc2, h3, h4]
        simp
    · have hc' : c.isWhitespace = false := by
        cases h' : c.isWhitespace
        · rfl
        · exact absurd h' hc
      rw [space1_cons_not rest hc'] at h
      cases h

theorem attempt_consumes {a r : List Char} {v : String × String}
    (h : right space1 attribute_pair a = .ok (r, v)) : r.length < a.length := by
  obtain ⟨r1, u, hsp, hap⟩ := right_ok_inv h
  have h1 := space1_consumes hsp
  have h2 : r <:+ r1 := sound_attribute_pair.1 _ _ _ hap
  exact Nat.lt_of_le_of_lt h2.length_le h1

theorem attempt_ws_ok {a w r : List Char} {v : String × String} (hw : AllWS w)
    (h : right space1 attribute_pair a = .ok (r, v)) :
    right space1 attribute_pair (a ++ w) = .ok (r ++ w, v) := by
  obtain ⟨r1, u, hsp, hap⟩ := right_ok_inv h
  have hr1 : r1 ≠ [] := by
    intro he
    subst he
    obtain ⟨r2, hid, _⟩ := pair_ok_inv hap
    cases hid
  exact right_ok_of (space1_ws_ok hw hsp hr1) (attribute_pair_ws_ok hw hap)

theorem space1_all_ws {a : List Char} {c : Char} {rest : List Char}
    (ha : a = c :: rest) (hc : c.isWhitespace = true)
    (hrest : rest.dropWhile (fun x => x.isWhitespace) = []) (w : List Char)
    (hw : AllWS w) :
    space1 (a ++ w) = .ok (w.dropWhile (fun x => x.isWhitespace),
      c :: (rest ++ w.takeWhile (fun x => x.isWhitespace))) := by
  subst ha
  rw [List.cons_append, space1_cons_ws _ hc]
  have hall := all_of_dropWhile_nil hrest
  have h1 : (c :: (rest ++ w)).takeWhile (fun x => x.isWhitespace)
      = c :: (rest ++ w.takeWhile (fun x => x.isWhitespace)) := by
    rw [List.takeWhile_cons]
    simp only [hc, if_true]
    rw [(takeWhile_append_all w hall).1]
  have h2 : (c :: (rest ++ w)).dropWhile (fun x => x.isWhitespace)
      = w.dropWhile (fun x => x.isWhitespace) := by
    rw [List.dropWhile_cons]
    simp only [hc, if_true]
    rw [(takeWhile_append_all w hall).2]
  rw [h1, h2]

theorem attempt_ws_err {a e w : List Char} (hw : AllWS w)
    (h : right space1 attribute_pair a = .error e) :
    ∃ e', right space1 attribute_pair (a ++ w) = .error e' := by
  rcases right_err_inv h with h1 | ⟨r1, u, hsp, hap⟩
  · rw [space1_error_eq h1] at h1
    match a, h1 with
    | [], h1 =>
      rw [List.nil_append]
      match w with
      | [] => exact ⟨e, h⟩
      | x :: xs =>
        have hx : x.isWhitespace = true := hw x (List.mem_cons_self _ _)
        have hxs : AllWS xs := fun y hy => hw y (List.mem_cons_of_mem _ hy)
        have hsp2 : space1 (x :: xs) = .ok
            ((x :: xs).dropWhile (fun c => c.isWhitespace),
             (x :: xs).takeWhile (fun c => c.isWhitespace)) := space1_cons_ws xs hx
        have hnil : (x :: xs).dropWhile (fun c => c.isWhitespace) = [] :=
          allWS_dropWhile hw
        rw [hnil] at hsp2
        exact ⟨[], right_err_snd hsp2 (pair_err_fst (by rfl))⟩
    | c :: rest, h1 =>
      have hc : c.isWhitespace = false := by
        cases hc' : c.isWhitespace
        · rfl
        · rw [space1_cons_ws rest hc'] at h1
          cases h1
      rw [List.cons_append]
      exact ⟨c :: (rest ++ w), right_err_fst (space1_cons_not _ hc)⟩
  · cases hr1 : r1 with
    | nil =>
      subst hr1
      match a, hsp with
      | c :: rest, hsp =>
        have hc : c.isWhitespace = true := by
          cases hc' : c.isWhitespace
          · rw [space1_cons_not rest hc'] at hsp
            cases hsp
          · rfl
        rw [space1_cons_ws rest hc] at hsp
        injection hsp with hsp'
        injection hsp' with hsp1 _
        have hrest : rest.dropWhile (fun x => x.isWhitespace) = [] := by
          have : (c :: rest).dropWhile (fun x => x.isWhitespace)
              = rest.dropWhile (fun x => x.isWhitespace) := by
            rw [List.dropWhile_cons]; simp [hc]
          rw [this] at hsp1
          exact hsp1.symm ▸ rfl
        have hsp2 := space1_all_ws rfl hc hrest w hw
        have hwnil : w.dropWhile (fun x => x.isWhitespace) = [] := allWS_dropWhile hw
        rw [hwnil] at hsp2
        refine ⟨[], right_err_snd hsp2 (pair_err_fst ?_)⟩
        rfl
    | cons d ds =>
      have hr1ne : r1 ≠ [] := by rw [hr1]; simp
      obtain ⟨e', he'⟩ := attribute_pair_ws_err hw hap
      exact ⟨e', right_err_snd (space1_ws_ok hw hsp hr1ne) he'⟩

theorem zom_ws_append {p : Parser α} {w : List Char}
    (hok : ∀ a r v, p a = .ok (r, v) → p (a ++ w) = .ok (r ++ w, v))
    (herr : ∀ a e, p a = .error e → ∃ e', p (a ++ w) = .error e')
    (hcons : ∀ a r v, p a = .ok (r, v) → r.length < a.length) :
    ∀ (fuel : Nat) (a : List Char), a.length < fuel →
      zom p (fuel + w.length) (a ++ w)
        = ((zom p fuel a).1 ++ w, (zom p fuel a).2) := by
  intro fuel
  induction fuel with
  | zero => intro a h; exact absurd h (by simp)
  | succ f ih =>
    intro a hlen
    have hfs : f + 1 + w.length = (f + w.length) + 1 := by omega
    rw [hfs, zom, zom]
    cases hp : p a with
    | error e =>
      obtain ⟨e', he'⟩ := herr a e hp
      rw [he']
    | ok x =>
      obtain ⟨rest, v⟩ := x
      rw [hok a rest v hp]
      have hr : rest.length < f := by
        have := hcons a rest v hp
        omega
      dsimp only
      rw [ih rest hr]

theorem attributes_ws_ok {a w r : List Char} {vs : List (String × String)}
    (hw : AllWS w) (h : attributes a = .ok (r, vs)) :
    attributes (a ++ w) = .ok (r ++ w, vs) := by
  unfold attributes zero_or_more at h ⊢
  injection h with h'
  injection h' with h1 h2
  have hfs : (a ++ w).length + 1 = (a.length + 1) + w.length := by
    simp only [List.length_append]
    omega
  rw [hfs, zom_ws_append (fun x r' v' hx => attempt_ws_ok hw hx)
    (fun x e hx => attempt_ws_err hw hx)
    (fun x r' v' hx => attempt_consumes hx) (a.length + 1) a (Nat.lt_succ_self _)]
  rw [h1, h2]

theorem element_start_ws_ok {a w r : List Char} {v : String × List (String × String)}
    (hw : AllWS w) (h : element_start a = .ok (r, v)) :
    element_start (a ++ w) = .ok (r ++ w, v) := by
  obtain ⟨r1, u, hml, hp⟩ := right_ok_inv h
  obtain ⟨r2, hid, hat⟩ := pair_ok_inv hp
  exact right_ok_of (match_literal_append_ok hml)
    (pair_ok_of (identifier_ws_ok hw hid) (attributes_ws_ok hw hat))

theorem element_start_ws_err {a e w : List Char} (hw : AllWS w)
    (h : element_start a = .error e) :
    ∃ e', element_start (a ++ w) = .error e' := by
  rcases right_err_inv h with h1 | ⟨r1, u, hml, hp⟩
  · rw [(match_literal_error h1).1] at h1
    exact ⟨a ++ w, right_err_fst (match_literal_ws_err hw (by decide) h1)⟩
  · rcases pair_err_inv hp with h2 | ⟨r2, nm, hid, hat⟩
    · rw [identifier_error_eq h2] at h2
      exact ⟨r1 ++ w, right_err_snd (match_literal_append_ok hml)
        (pair_err_fst (identifier_ws_err hw h2))⟩
    · exact absurd hat attributes_ne_err

theorem single_element_ws_ok {a w r : List Char} {v : Element} (hw : AllWS w)
    (h : single_element a = .ok (r, v)) :
    single_element (a ++ w) = .ok (r ++ w, v) := by
  obtain ⟨nv, hin, hv⟩ := map_ok_inv h
  obtain ⟨r1, u, hes, hml⟩ := left_ok_inv hin
  subst hv
  exact map_ok_of (left_ok_of (element_start_ws_ok hw hes) (match_literal_append_ok hml))

theorem single_element_ws_err {a e w : List Char} (hw : AllWS w)
    (h : single_element a = .error e) :
    ∃ e', single_element (a ++ w) = .error e' := by
  rcases left_err_inv (map_err_inv h) with h1 | ⟨r1, nv, hes, hml⟩
  · obtain ⟨e', he'⟩ := element_start_ws_err hw h1
    exact ⟨e', map_err_of (left_err_fst he')⟩
  · rw [(match_literal_error hml).1] at hml
    exact ⟨r1 ++ w, map_err_of (left_err_snd (element_start_ws_ok hw hes)
      (match_literal_ws_err hw (by decide) hml))⟩

theorem open_element_ws_ok {a w r : List Char} {v : Element} (hw : AllWS w)
    (h : open_element a = .ok (r, v)) :
    open_element (a ++ w) = .ok (r ++ w, v) := by
  obtain ⟨nv, hin, hv⟩ := map_ok_inv h
  obtain ⟨r1, u, hes, hml⟩ := left_ok_inv hin
  subst hv
  exact map_ok_of (left_ok_of (element_start_ws_ok hw hes) (match_literal_append_ok hml))

theorem open_element_ws_err {a e w : List Char} (hw : AllWS w)
    (h : open_element a = .error e) :
    ∃ e', open_element (a ++ w) = .error e' := by
  rcases left_err_inv (map_err_inv h) with h1 | ⟨r1, nv, hes, hml⟩
  · obtain ⟨e', he'⟩ := element_start_ws_err hw h1
    exact ⟨e', map_err_of (left_err_fst he')⟩
  · rw [(match_literal_error hml).1] at hml
    exact ⟨r1 ++ w, map_err_of (left_err_snd (element_start_ws_ok hw hes)
      (match_literal_ws_err hw (by decide) hml))⟩

theorem close_inner_ws_ok {a w r : List Char} {v : String} (hw : AllWS w)
    (h : right (match_literal ['<', '/']) (left identifier (match_literal ['>'])) a
      = .ok (r, v)) :
    right (match_literal ['<', '/']) (left identifier (match_literal ['>'])) (a ++ w)
      = .ok (r ++ w, v) := by
  obtain ⟨r1, u, hml1, hlf⟩ := right_ok_inv h
  obtain ⟨r2, u2, hid, hml2⟩ := left_ok_inv hlf
  exact right_ok_of (match_literal_append_ok hml1)
    (left_ok_of (identifier_ws_ok hw hid) (match_literal_append_ok hml2))

theorem close_element_ws_ok {name : String} {a w r : List Char} {v : String}
    (hw : AllWS w) (h : close_element name a = .ok (r, v)) :
    close_element name (a ++ w) = .ok (r ++ w, v) := by
  obtain ⟨hin, hq⟩ := pred_ok_inv h
  exact pred_ok_of (close_inner_ws_ok hw hin) hq

theorem close_element_ws_err {name : String} {a e w : List Char}
    (hw : AllWS w) (h : close_element name a = .error e) :
    ∃ e', close_element name (a ++ w) = .error e' := by
  rcases pred_err_inv h with h1 | ⟨r, nm, hin, hq, he⟩
  · rcases right_err_inv h1 with h2 | ⟨r1, u, hml1, hlf⟩
    · rw [(match_literal_error h2).1] at h2
      exact ⟨a ++ w, pred_err_of (right_err_fst (match_literal_ws_err hw (by decide) h2))⟩
    · rcases left_err_inv hlf with h3 | ⟨r2, u2, hid, hml2⟩
      · rw [identifier_error_eq h3] at h3
        exact ⟨r1 ++ w, pred_err_of (right_err_snd (match_literal_append_ok hml1)
          (left_err_fst (identifier_ws_err hw h3)))⟩
      · rw [(match_literal_error hml2).1] at hml2
        exact ⟨r2 ++ w, pred_err_of (right_err_snd (match_literal_append_ok hml1)
          (left_err_snd (identifier_ws_ok hw hid)
            (match_literal_ws_err hw (by decide) hml2)))⟩
  · exact ⟨a ++ w, pred_reject (close_inner_ws_ok hw hin) hq⟩

theorem either_ok_inv {p1 p2 : Parser α} {i : List Char} {x : List Char × α}
    (h : either p1 p2 i = .ok x) :
    p1 i = .ok x ∨ ∃ e1, p1 i = .error e1 ∧ p2 i = .ok x := by
  unfold either at h
  split at h
  case h_1 y heq =>
    injection h with h'
    subst h'
    exact Or.inl heq
  case h_2 e1 heq =>
    exact Or.inr ⟨e1, heq, h⟩

theorem either_err_inv {p1 p2 : Parser α} {i e : List Char}
    (h : either p1 p2 i = .error e) :
    ∃ e1, p1 i = .error e1 ∧ p2 i = .error e := by
  unfold either at h
  split at h
  case h_1 => cases h
  case h_2 e1 heq => exact ⟨e1, heq, h⟩

theorem and_then_ok_inv {p : Parser α} {f : α → Parser β} {i : List Char}
    {x : List Char × β} (h : and_then p f i = .ok x) :
    ∃ r1 v1, p i = .ok (r1, v1) ∧ f v1 r1 = .ok x := by
  unfold and_then at h
  split at h
  case h_1 r1 v1 heq => exact ⟨r1, v1, heq, h⟩
  case h_2 => cases h

theorem and_then_err_inv {p : Parser α} {f : α → Parser β} {i e : List Char}
    (h : and_then p f i = .error e) :
    p i = .error e ∨ ∃ r1 v1, p i = .ok (r1, v1) ∧ f v1 r1 = .error e := by
  unfold and_then at h
  split at h
  case h_1 r1 v1 heq => exact Or.inr ⟨r1, v1, heq, h⟩
  case h_2 e1 heq =>
    cases h
    exact Or.inl heq

theorem zero_or_more_ne_err {p : Parser α} {i e : List Char}
    (h : zero_or_more p i = .error e) : False := by
  unfold zero_or_more at h
  cases h

theorem zero_or_more_ok_inv {p : Parser α} {i r : List Char} {vs : List α}
    (h : zero_or_more p i = .ok (r, vs)) :
    r = (zom p (i.length + 1) i).1 ∧ vs = (zom p (i.length + 1) i).2 := by
  unfold zero_or_more at h
  injection h with h'
  injection h' with h1 h2
  exact ⟨h1.symm, h2.symm⟩

theorem single_element_consumes {a r : List Char} {v : Element}
    (h : single_element a = .ok (r, v)) : r.length < a.length := by
  obtain ⟨nv, hin, _⟩ := map_ok_inv h
  obtain ⟨r1, u, hes, hml⟩ := left_ok_inv hin
  have h1 := element_start_consumes hes
  have h2 : r <:+ r1 := (sound_match_literal _).1 _ _ _ hml
  exact Nat.lt_of_le_of_lt h2.length_le h1

theorem parent_elementF_consumes {n : Nat} {a r : List Char} {v : Element}
    (h : parent_elementF n a = .ok (r, v)) : r.length < a.length := by
  obtain ⟨r1, el, hop, hrest⟩ := and_then_ok_inv h
  have h1 := open_element_consumes hop
  obtain ⟨kids, hin, _⟩ := map_ok_inv hrest
  obtain ⟨r2, nm, hz, hcl⟩ := left_ok_inv hin
  have h2 : r2 <:+ r1 := (sound_zero_or_more (sound_elementF n)).1 _ _ _ hz
  have h3 : r <:+ r2 := (sound_close_element _).1 _ _ _ hcl
  have := h3.length_le.trans h2.length_le
  omega

theorem elementF_consumes {n : Nat} {a r : List Char} {v : Element}
    (h : elementF n a = .ok (r, v)) : r.length < a.length := by
  match n with
  | 0 => cases h
  | n + 1 =>
    rw [elementF_succ, whitespace_wrap_eq] at h
    cases hin : either single_element (parent_elementF n)
        (a.dropWhile (fun c => c.isWhitespace)) with
    | error e =>
      rw [hin] at h
      cases h
    | ok x =>
      obtain ⟨r1, v1⟩ := x
      rw [hin] at h
      dsimp only at h
      injection h with h'
      injection h' with hr hv
      subst hr
      have hlt : r1.length < (a.dropWhile (fun c => c.isWhitespace)).length := by
        rcases either_ok_inv hin with hs | ⟨e1, _, hp⟩
        · exact single_element_consumes hs
        · exact parent_elementF_consumes hp
      have h2 := (dropWhile_suffix (fun c => c.isWhitespace) r1).length_le
      have h3 := (dropWhile_suffix (fun c => c.isWhitespace) a).length_le
      omega

theorem elementF_ok_head {n : Nat} {a r : List Char} {v : Element}
    (h : elementF n a = .ok (r, v)) :
    r.dropWhile (fun c => c.isWhitespace) = r := by
  match n with
  | 0 => cases h
  | n + 1 =>
    rw [elementF_succ, whitespace_wrap_eq] at h
    cases hin : either single_element (parent_elementF n)
        (a.dropWhile (fun c => c.isWhitespace)) with
    | error e =>
      rw [hin] at h
      cases h
    | ok x =>
      obtain ⟨r1, v1⟩ := x
      rw [hin] at h
      dsimp only at h
      injection h with h'
      injection h' with hr _
      subst hr
      exact dropWhile_idem _ r1

/-- Appending whitespace preserves a successful `elementF` run with the
remaining input gaining the whitespace, up to the trailing strip. -/
def ElemWsOk (n : Nat) (w : List Char) : Prop :=
  ∀ a r v, elementF n a = .ok (r, v) →
    elementF n (a ++ w) = .ok ((r ++ w).dropWhile (fun c => c.isWhitespace), v)

/-- Appending whitespace preserves an `elementF` failure. -/
def ElemWsErr (n : Nat) (w : List Char) : Prop :=
  ∀ a e, elementF n a = .error e → ∃ e', elementF n (a ++ w) = .error e'

theorem dropWhile_self_head_false {q : Char → Bool} {d : Char} {ds : List Char}
    (h : (d :: ds).dropWhile q = d :: ds) : q d = false := by
  by_cases hq : q d
  · rw [List.dropWhile_cons] at h
    simp only [hq, if_true] at h
    have hlen := congrArg List.length h
    have hle := (dropWhile_suffix q ds).length_le
    simp only [List.length_cons] at hlen
    omega
  · cases hq' : q d
    · rfl
    · exact absurd hq' hq

theorem zom_nil_elem {n g : Nat} (hg : 0 < g) (hn : 0 < n) :
    zom (elementF n) g [] = ([], []) := by
  match g, hg, n, hn with
  | g + 1, _, n + 1, _ =>
    rw [zom, elementF_ws_err (fun c hc => by cases hc) n]

theorem zom_elem_ws {n : Nat} {w : List Char} (hw : AllWS w)
    (hok : ElemWsOk n w) (herr : ElemWsErr n w) :
    ∀ (fuel : Nat) (a : List Char), a.length < fuel →
      (zom (elementF n) (fuel + w.length) (a ++ w)
          = ((zom (elementF n) fuel a).1 ++ w, (zom (elementF n) fuel a).2)) ∨
      ((zom (elementF n) fuel a).1 = [] ∧
        zom (elementF n) (fuel + w.length) (a ++ w)
          = ([], (zom (elementF n) fuel a).2)) := by
  intro fuel
  induction fuel with
  | zero => intro a h; exact absurd h (by simp)
  | succ f ih =>
    intro a hlen
    have hfs : f + 1 + w.length = (f + w.length) + 1 := by omega
    rw [hfs, zom, zom]
    cases hp : elementF n a with
    | error e =>
      obtain ⟨e', he'⟩ := herr a e hp
      rw [he']
      exact Or.inl rfl
    | ok x =>
      obtain ⟨rest, v⟩ := x
      rw [hok a rest v hp]
      have hcons := elementF_consumes hp
      have hr : rest.length < f := by omega
      have hn1 : 0 < n := by
        match n, hp with
        | n + 1, _ => omega
      by_cases hrest : rest = []
      · subst hrest
        rw [List.nil_append, allWS_dropWhile hw]
        dsimp only
        rw [zom_nil_elem (by omega) hn1, zom_nil_elem (by omega) hn1]
        exact Or.inr ⟨rfl, rfl⟩
      · obtain ⟨d, ds, hdds⟩ := List.exists_cons_of_ne_nil hrest
        have hhead := elementF_ok_head hp
        have hd : d.isWhitespace = false := by
          rw [hdds] at hhead
          exact dropWhile_self_head_false hhead
        have hdw : (rest ++ w).dropWhile (fun c => c.isWhitespace) = rest ++ w := by
          rw [hdds, List.cons_append, List.dropWhile_cons]
          simp [hd]
        rw [hdw]
        dsimp only
        rcases ih rest hr with h1 | ⟨h1, h2⟩
        · rw [h1]
          exact Or.inl rfl
        · rw [h2, h1]
          exact Or.inr ⟨rfl, rfl⟩

theorem close_element_nil (s : String) : close_element s [] = .error [] := rfl

theorem parent_ws_ok {n : Nat} {w : List Char} (hw : AllWS w)
    (hok : ElemWsOk n w) (herr : ElemWsErr n w) {a r : List Char} {v : Element}
    (h : parent_elementF n a = .ok (r, v)) :
    parent_elementF n (a ++ w) = .ok (r ++ w, v) := by
  obtain ⟨r1, el, hop, hrest⟩ := and_then_ok_inv h
  obtain ⟨kids, hin, hv⟩ := map_ok_inv hrest
  obtain ⟨r2, nm, hz, hcl⟩ := left_ok_inv hin
  obtain ⟨hr2, hkids⟩ := zero_or_more_ok_inv hz
  rcases zom_elem_ws hw hok herr (r1.length + 1) r1 (Nat.lt_succ_self _) with h1 | ⟨h1, _⟩
  · have hzext : zero_or_more (elementF n) (r1 ++ w) = .ok (r2 ++ w, kids) := by
      unfold zero_or_more
      have hfs : (r1 ++ w).length + 1 = (r1.length + 1) + w.length := by
        simp only [List.length_append]
        omega
      rw [hfs, h1, ← hr2, ← hkids]
    have hclext := close_element_ws_ok hw hcl
    unfold parent_elementF
    rw [and_then_ok_of (open_element_ws_ok hw hop)]
    subst hv
    exact map_ok_of (left_ok_of hzext hclext)
  · have hr2nil : r2 = [] := hr2.trans h1
    rw [hr2nil, close_element_nil] at hcl
    cases hcl

theorem parent_ws_err {n : Nat} {w : List Char} (hw : AllWS w)
    (hok : ElemWsOk n w) (herr : ElemWsErr n w) {a e : List Char}
    (h : parent_elementF n a = .error e) :
    ∃ e', parent_elementF n (a ++ w) = .error e' := by
  rcases and_then_err_inv h with h1 | ⟨r1, el, hop, hrest⟩
  · obtain ⟨e', he'⟩ := open_element_ws_err hw h1
    exact ⟨e', by unfold parent_elementF; exact and_then_err_of he'⟩
  · rcases left_err_inv (map_err_inv hrest) with h2 | ⟨r2, kids, hz, hclerr⟩
    · exact absurd h2 zero_or_more_ne_err
    · obtain ⟨hr2, hkids⟩ := zero_or_more_ok_inv hz
      have hfs : (r1 ++ w).length + 1 = (r1.length + 1) + w.length := by
        simp only [List.length_append]
        omega
      rcases zom_elem_ws hw hok herr (r1.length + 1) r1 (Nat.lt_succ_self _)
        with h1 | ⟨h1, h2⟩
      · have hzext : zero_or_more (elementF n) (r1 ++ w) = .ok (r2 ++ w, kids) := by
          unfold zero_or_more
          rw [hfs, h1, ← hr2, ← hkids]
        obtain ⟨e', he'⟩ := close_element_ws_err hw hclerr
        refine ⟨e', ?_⟩
        unfold parent_elementF
        rw [and_then_ok_of (open_element_ws_ok hw hop)]
        exact map_err_of (left_err_snd hzext he')
      · have hzext : zero_or_more (elementF n) (r1 ++ w) = .ok ([], kids) := by
          unfold zero_or_more
          rw [hfs, h2, ← hkids]
        refine ⟨[], ?_⟩
        unfold parent_elementF
        rw [and_then_ok_of (open_element_ws_ok hw hop)]
        exact map_err_of (left_err_snd hzext (close_element_nil _))

/-- Appending trailing whitespace: the element parser's success is
preserved with the same value, and its failure remains a failure. -/
theorem elementF_ws {w : List Char} (hw : AllWS w) :
    ∀ n, ElemWsOk n w ∧ ElemWsErr n w := by
  intro n
  induction n with
  | zero =>
    constructor
    · intro a r v h
      cases h
    · intro a e _
      exact ⟨a ++ w, rfl⟩
  | succ n ih =>
    obtain ⟨hok, herr⟩ := ih
    constructor
    · intro a r v h
      rw [elementF_succ, whitespace_wrap_eq] at h
      cases hin : either single_element (parent_elementF n)
          (a.dropWhile (fun c => c.isWhitespace)) with
      | error e =>
        rw [hin] at h
        cases h
      | ok x =>
        obtain ⟨r1, v1⟩ := x
        rw [hin] at h
        dsimp only at h
        injection h with h'
        injection h' with hr hv
        subst hv
        cases hda : a.dropWhile (fun c => c.isWhitespace) with
        | nil =>
          rw [hda, inner_fail_no_lt n (by rfl)] at hin
          cases hin
        | cons d ds =>
          rw [hda] at hin
          have hdaw : (a ++ w).dropWhile (fun c => c.isWhitespace)
              = (d :: ds) ++ w := by
            rw [(takeWhile_append_stop w hda).2]
            simp
          have hinext : either single_element (parent_elementF n) ((d :: ds) ++ w)
              = .ok (r1 ++ w, v1) := by
            rcases either_ok_inv hin with hs | ⟨e1, hserr, hp⟩
            · exact either_ok_of (single_element_ws_ok hw hs)
            · obtain ⟨es', hsext⟩ := single_element_ws_err hw hserr
              rw [either_err_of hsext]
              exact parent_ws_ok hw hok herr hp
          rw [elementF_succ, whitespace_wrap_eq, hdaw, hinext]
          rw [← hr, dropWhile_append_dropWhile]
    · intro a e h
      rw [elementF_succ, whitespace_wrap_eq] at h
      cases hin : either single_element (parent_elementF n)
          (a.dropWhile (fun c => c.isWhitespace)) with
      | ok x =>
        obtain ⟨r1, v1⟩ := x
        rw [hin] at h
        dsimp only at h
        cases h
      | error e1 =>
        cases hda : a.dropWhile (fun c => c.isWhitespace) with
        | nil =>
          have hdaw : (a ++ w).dropWhile (fun c => c.isWhitespace) = [] := by
            rw [(takeWhile_append_all w (all_of_dropWhile_nil hda)).2,
              allWS_dropWhile hw]
          refine ⟨[], ?_⟩
          rw [elementF_succ, whitespace_wrap_eq, hdaw, inner_fail_no_lt n (by rfl)]
        | cons d ds =>
          rw [hda] at hin
          obtain ⟨e2, hserr, hperr⟩ := either_err_inv hin
          obtain ⟨es', hsext⟩ := single_element_ws_err hw hserr
          obtain ⟨ep', hpext⟩ := parent_ws_err hw hok herr hperr
          have hinext : either single_element (parent_elementF n) ((d :: ds) ++ w)
              = .error ep' := by
            rw [either_err_of hsext]
            exact hpext
          have hdaw : (a ++ w).dropWhile (fun c => c.isWhitespace)
              = (d :: ds) ++ w := by
            rw [(takeWhile_append_stop w hda).2]
            simp
          refine ⟨ep', ?_⟩
          rw [elementF_succ, whitespace_wrap_eq, hdaw, hinext]

/-- Appending trailing whitespace to any successfully parsed document
keeps the parse successful with the same value; the remaining input only
absorbs the whitespace reachable by the trailing strip. -/
theorem element_ws_append {d w r : List Char} {v : Element} (hw : AllWS w)
    (h : element d = .ok (r, v)) :
    element (d ++ w) = .ok ((r ++ w).dropWhile (fun c => c.isWhitespace), v) := by
  unfold element at h ⊢
  have hL : elementF ((d ++ w).length + 1) d = .ok (r, v) := by
    rw [elementF_congr ((d ++ w).length + 1) (d.length + 1) d
      (by simp only [List.length_append]; omega) (Nat.lt_succ_self _)]
    exact h
  exact (elementF_ws hw ((d ++ w).length + 1)).1 d r v hL

/-- C8: whitespace insensitivity at element boundaries. Prepending
whitespace never changes the result of `element` at all; appending
whitespace to a successfully parsed document keeps the same parsed value
(only the consumed span grows); and any text rendering an element — for
every choice of leading, trailing and attribute-separating whitespace —
parses to exactly the denoted value. -/
theorem claim_C8_whitespace_insensitive :
    (∀ (w d : List Char), AllWS w → element (w ++ d) = element d) ∧
    (∀ (d w r : List Char) (v : Element), AllWS w → element d = .ok (r, v) →
      element (d ++ w) = .ok ((r ++ w).dropWhile (fun c => c.isWhitespace), v)) ∧
    (∀ (t w1 w2 : List Char) (e : Element), Renders t (.inl e) →
      AllWS w1 → AllWS w2 → element (w1 ++ (t ++ w2)) = .ok ([], e)) :=
  ⟨fun _ d hw => element_ws_prepend hw d,
   fun _ _ _ _ hw h => element_ws_append hw h,
   fun _ w1 w2 _ h h1 h2 => renders_element h w1 w2 h1 h2⟩

theorem claim_C8_witness :
    element ("  <a/>".toList) = element ("<a/>".toList) ∧
    element ("<a/> ".toList) = .ok ([], Element.mk "a" [] []) ∧
    element (" <a/> ".toList) = .ok ([], Element.mk "a" [] []) := by
  refine ⟨?_, ?_, ?_⟩
  · exact claim_C8_whitespace_insensitive.1 ("  ".toList) ("<a/>".toList) (by decide)
  · have h := claim_C8_whitespace_insensitive.2.1 ("<a/>".toList) (" ".toList) []
      (Element.mk "a" [] []) (by decide) (by rfl)
    exact h
  · have h := claim_C8_whitespace_insensitive.2.2 ('<' :: (['a'] ++ ([] ++ ['/', '>'])))
      [' '] [' '] (Element.mk "a" [] [])
      (@Renders.single ['a'] 'a' [] [] [] rfl (by decide) (by decide) AttrsText.nil)
      (by decide) (by decide)
    exact h

end XP
